import Mathlib

/-!
Shallow embedding of the localsearch hybrid retrieval engine
(src/engines/sqlite.rs, src/embed.rs, src/traits.rs).

Floating-point scores (f32 / f64 in the source) are modelled as real
numbers; machine rounding is not modelled, so every tolerance claimed by
the spec is proved as an exact identity.  The SQLite storage backend is
modelled as three in-memory relations (documents, document_embeddings,
documents_fts) and the external FTS5 relevance capability (bm25) as an
abstract function from query and content to an optional score.  The
std HashMap used by the hybrid fusion is modelled as an association list
built in insertion order, whose unspecified iteration order is an
explicit enumeration parameter.
-/

namespace LocalSearch

/-- Metadata mapping, as stored in the documents table. -/
abbrev Metadata := List (String × String)

/-- Document row (documents table in sqlite.rs create_table). -/
structure Document where
  path : String
  content : String
  metadata : Option Metadata
  createdAt : ℝ
  updatedAt : ℝ

/-- SearchResult from src/traits.rs. -/
structure SearchResult where
  path : String
  metadata : Option Metadata
  created_at : ℝ
  updated_at : ℝ
  fts_score : Option ℝ
  semantic_score : Option ℝ
  final_score : ℝ

/-- DocumentRequest from src/traits.rs. -/
structure DocumentRequest where
  path : String
  content : String
  metadata : Option Metadata

/-- SearchType from src/traits.rs. -/
inductive SearchType where
  | FullText
  | Semantic
  | Hybrid

/-- The three relations backing SqliteLocalSearchEngine: the documents
table, the document_embeddings table (path, vector) and the
documents_fts virtual table (path, content). -/
structure EngineState where
  documents : List Document
  document_embeddings : List (String × List ℝ)
  documents_fts : List (String × String)

/-- The raw text-embedding model consumed by LocalEmbedder (embed.rs):
text to fixed-length vector.  Its output is normalized by embed_text. -/
abbrev Embedder := String → List ℝ

/-- SqliteLocalSearchEngine: connection state plus optional embedder. -/
structure Engine where
  state : EngineState
  embedder : Option Embedder

/-- External FTS5 bm25 capability: given the query string and the content
of a row, returns the bm25 score when the row matches the query (in FTS5,
lower bm25 means more relevant), and none when the row does not match. -/
abbrev Bm25 := String → String → Option ℝ

/-! ### embed.rs -/

/-- L2 norm computed inside LocalEmbedder::normalize_l2:
sqrt of the sum of squares. -/
noncomputable def l2norm (v : List ℝ) : ℝ :=
  Real.sqrt (v.map (fun x => x * x)).sum

/-- LocalEmbedder::normalize_l2 (embed.rs lines 171-183): divide by the
norm unless the norm is below 1e-5, in which case the vector is returned
unchanged. -/
noncomputable def normalize_l2 (v : List ℝ) : List ℝ :=
  if l2norm v < 1e-5 then v else v.map (fun x => x / l2norm v)

/-- LocalEmbedder::embed_text (embed.rs lines 155-162): run the model and
L2-normalize the resulting vector. -/
noncomputable def embed_text (m : Embedder) (text : String) : List ℝ :=
  normalize_l2 (m text)

/-! ### sqlite.rs scoring primitives -/

/-- SqliteLocalSearchEngine::cosine_similarity (sqlite.rs lines 430-438):
0.0 on length mismatch, otherwise the dot product of the two vectors. -/
def cosine_similarity (a b : List ℝ) : ℝ :=
  if a.length ≠ b.length then 0
  else (List.zipWith (fun x y => x * y) a b).sum

/-- SqliteLocalSearchEngine::softmax (sqlite.rs lines 411-428): subtract
the maximum for numerical stability, exponentiate, and divide by the sum
of exponentials (falling back to 1/n when that sum is not positive). -/
noncomputable def softmax (scores : List ℝ) : List ℝ :=
  match scores with
  | [] => []
  | s0 :: rest =>
    let max_score := rest.foldl max s0
    let exp_scores := (s0 :: rest).map (fun s => Real.exp (s - max_score))
    let sum_exp := exp_scores.sum
    exp_scores.map (fun e => if 0 < sum_exp then e / sum_exp else 1 / (s0 :: rest).length)

/-! ### Path filtering (the SQL LIKE pushdown) -/

/-- Whether the character list p starts with the character list f. -/
def startsWithChars : List Char → List Char → Bool
  | [], _ => true
  | _ :: _, [] => false
  | a :: as, b :: bs => a = b && startsWithChars as bs

/-- Whether f occurs as a contiguous substring of p; this is the meaning
of the SQL condition path LIKE '%' || f || '%' built by search_fts and
search_by_embedding for each path filter. -/
def containsSub (f p : List Char) : Bool :=
  startsWithChars f p ||
    match p with
    | [] => false
    | _ :: t => containsSub f t

/-- One LIKE '%' || filter || '%' condition applied to a path. -/
def likeMatch (f p : String) : Bool :=
  containsSub f.data p.data

/-- The WHERE clause built from path_filters: absent or empty filter
lists keep every row (Option::filter(|f| !f.is_empty()) in the source);
otherwise the disjunction of the LIKE conditions. -/
def pathFilterOk (path_filters : Option (List String)) (p : String) : Bool :=
  match path_filters with
  | none => true
  | some fs => if fs.isEmpty then true else fs.any (fun f => likeMatch f p)

/-! ### Row lookup helpers (SQL joins on path) -/

/-- The JOIN documents d ON ... = d.path lookup. -/
def findDoc (docs : List Document) (p : String) : Option Document :=
  docs.find? (fun d => d.path = p)

/-- The JOIN document_embeddings e ON d.path = e.path lookup. -/
def lookupEmbedding (embs : List (String × List ℝ)) (p : String) : Option (List ℝ) :=
  (embs.find? (fun e => e.1 = p)).map (fun e => e.2)

/-! ### Sort relations used by the three sort sites in sqlite.rs -/

/-- ORDER BY score in search_fts: ascending bm25. -/
def byBm25Asc (a b : Document × ℝ) : Prop := a.2 ≤ b.2

/-- sort_by in search_by_embedding: descending semantic score. -/
def bySemDesc (a b : SearchResult) : Prop :=
  b.semantic_score.getD 0 ≤ a.semantic_score.getD 0

/-- sort_by in search_hybrid: descending final score. -/
def byFinalDesc (a b : SearchResult) : Prop :=
  b.final_score ≤ a.final_score

noncomputable instance : DecidableRel byBm25Asc := fun a b =>
  inferInstanceAs (Decidable (a.2 ≤ b.2))

noncomputable instance : DecidableRel bySemDesc := fun a b =>
  inferInstanceAs (Decidable (b.semantic_score.getD 0 ≤ a.semantic_score.getD 0))

noncomputable instance : DecidableRel byFinalDesc := fun a b =>
  inferInstanceAs (Decidable (b.final_score ≤ a.final_score))

instance : IsTotal (Document × ℝ) byBm25Asc :=
  ⟨fun a b => by unfold byBm25Asc; exact le_total _ _⟩
instance : IsTrans (Document × ℝ) byBm25Asc :=
  ⟨fun a b c h h2 => by unfold byBm25Asc at *; exact le_trans h h2⟩
instance : IsTotal SearchResult bySemDesc :=
  ⟨fun a b => by unfold bySemDesc; exact le_total _ _⟩
instance : IsTrans SearchResult bySemDesc :=
  ⟨fun a b c h h2 => by unfold bySemDesc at *; exact le_trans h2 h⟩
instance : IsTotal SearchResult byFinalDesc :=
  ⟨fun a b => by unfold byFinalDesc; exact le_total _ _⟩
instance : IsTrans SearchResult byFinalDesc :=
  ⟨fun a b c h h2 => by unfold byFinalDesc at *; exact le_trans h2 h⟩

/-! ### search_fts (sqlite.rs lines 322-409) -/

/-- The joined, matched and filtered rows of the search_fts SQL query,
in table order, before the ORDER BY. -/
def ftsRows (bm25 : Bm25) (s : EngineState) (query : String)
    (path_filters : Option (List String)) : List (Document × ℝ) :=
  s.documents_fts.filterMap (fun row =>
    match bm25 query row.2 with
    | none => none
    | some score =>
      match findDoc s.documents row.1 with
      | none => none
      | some d => if pathFilterOk path_filters d.path then some (d, score) else none)

/-- The row_mapper closure of search_fts: negate the bm25 score (so
that higher is better) and build the SearchResult. -/
def ftsRowMapper (dr : Document × ℝ) : SearchResult :=
  { path := dr.1.path, metadata := dr.1.metadata, created_at := dr.1.createdAt,
    updated_at := dr.1.updatedAt, fts_score := some (-dr.2), semantic_score := none,
    final_score := -dr.2 }

/-- SqliteLocalSearchEngine::search_fts: run the FTS query (match, path
filter, ORDER BY bm25 ascending), negate the bm25 score in the row
mapper, then apply softmax normalization over the candidate set. -/
noncomputable def search_fts (bm25 : Bm25) (s : EngineState) (query : String)
    (path_filters : Option (List String)) : List SearchResult :=
  let sortedRows := List.insertionSort byBm25Asc (ftsRows bm25 s query path_filters)
  let results := sortedRows.map ftsRowMapper
  let scores := results.map (fun r => r.fts_score.getD 0)
  if scores.isEmpty then results
  else
    let normalized_scores := softmax scores
    List.zipWith (fun r ns => { r with fts_score := some ns, final_score := ns })
      results normalized_scores

/-! ### search_by_embedding (sqlite.rs lines 199-294) -/

/-- The joined and path-filtered (document, stored vector) rows of the
search_by_embedding SQL query, before similarity scoring. -/
def embeddingRows (s : EngineState) (path_filters : Option (List String)) :
    List (Document × List ℝ) :=
  s.documents.filterMap (fun d =>
    match lookupEmbedding s.document_embeddings d.path with
    | none => none
    | some v => if pathFilterOk path_filters d.path then some (d, v) else none)

/-- The similarity-scoring loop body of search_by_embedding: compute the
cosine similarity of the query embedding and the stored vector and skip
the row when it is below the 1e-3 noise floor. -/
noncomputable def embeddingResults (s : EngineState) (query_embedding : List ℝ)
    (path_filters : Option (List String)) : List SearchResult :=
  (embeddingRows s path_filters).filterMap (fun dv =>
    if cosine_similarity query_embedding dv.2 < 1e-3 then none
    else some { path := dv.1.path, metadata := dv.1.metadata, created_at := dv.1.createdAt,
                updated_at := dv.1.updatedAt, fts_score := none,
                semantic_score := some (cosine_similarity query_embedding dv.2),
                final_score := cosine_similarity query_embedding dv.2 })

/-- SqliteLocalSearchEngine::search_by_embedding: score every filtered
row by cosine similarity, drop scores below 1e-3, sort descending by
semantic score. -/
noncomputable def search_by_embedding (s : EngineState) (query_embedding : List ℝ)
    (path_filters : Option (List String)) : List SearchResult :=
  List.insertionSort bySemDesc (embeddingResults s query_embedding path_filters)

/-! ### search_fulltext_only / search_semantic_only wrappers -/

/-- SqliteLocalSearchEngine::search_fulltext_only (sqlite.rs 296-320). -/
noncomputable def search_fulltext_only (bm25 : Bm25) (s : EngineState) (query : String)
    (path_filters : Option (List String)) : List SearchResult :=
  (search_fts bm25 s query path_filters).map (fun r =>
    { path := r.path, metadata := r.metadata, created_at := r.created_at,
      updated_at := r.updated_at, fts_score := some (r.fts_score.getD 0),
      semantic_score := none, final_score := r.final_score })

/-- SqliteLocalSearchEngine::search_semantic_only (sqlite.rs 83-107):
errors when no embedder is configured. -/
noncomputable def search_semantic_only (eng : Engine) (query : String)
    (path_filters : Option (List String)) : Except String (List SearchResult) :=
  match eng.embedder with
  | none => Except.error "Semantic search requires an embedder"
  | some embedder =>
    let query_embedding := embed_text embedder query
    Except.ok ((search_by_embedding eng.state query_embedding path_filters).map (fun r =>
      { path := r.path, metadata := r.metadata, created_at := r.created_at,
        updated_at := r.updated_at, fts_score := none,
        semantic_score := some (r.semantic_score.getD 0), final_score := r.final_score }))

/-! ### search_hybrid (sqlite.rs lines 109-197) -/

/-- One entry of the combined_results HashMap in search_hybrid: the base
SearchResult plus the optional normalized FTS and semantic components. -/
structure FuseEntry where
  base : SearchResult
  fts : Option ℝ
  sem : Option ℝ

/-- max_by over the FTS scores with unwrap_or(1.0) for the empty case. -/
def maxOrDefault (l : List ℝ) (d : ℝ) : ℝ :=
  match l with
  | [] => d
  | x :: xs => xs.foldl max x

/-- One iteration of the FTS loop of search_hybrid: max-normalize the
score (guarding a near-zero max) and insert into the map, overwriting an
existing entry for the same path. -/
noncomputable def ftsStep (max_fts_score : ℝ) (m : List (String × FuseEntry)) (result : SearchResult) :
    List (String × FuseEntry) :=
  let current_score := result.fts_score.getD 0
  let normalized_score :=
    current_score / (if |max_fts_score| < 1e-5 then 1 else max_fts_score)
  if m.any (fun kv => kv.1 = result.path) then
    m.map (fun kv =>
      if kv.1 = result.path then (result.path, ⟨result, some normalized_score, none⟩) else kv)
  else m ++ [(result.path, ⟨result, some normalized_score, none⟩)]

/-- One iteration of the semantic loop of search_hybrid: set the
semantic component of an existing entry, or insert a new entry with no
FTS component. -/
def semStep (m : List (String × FuseEntry)) (result : SearchResult) :
    List (String × FuseEntry) :=
  let result_score := result.semantic_score.getD 0
  if m.any (fun kv => kv.1 = result.path) then
    m.map (fun kv =>
      if kv.1 = result.path then (kv.1, ⟨kv.2.base, kv.2.fts, some result_score⟩) else kv)
  else m ++ [(result.path, ⟨result, none, some result_score⟩)]

/-- The final mapping step of search_hybrid: weighted sum of the two
components, 0.6 lexical and 0.4 semantic, each missing component
contributing 0. -/
noncomputable def fuseEntry (kv : String × FuseEntry) : SearchResult :=
  { path := kv.2.base.path, metadata := kv.2.base.metadata,
    created_at := kv.2.base.created_at, updated_at := kv.2.base.updated_at,
    fts_score := kv.2.fts, semantic_score := kv.2.sem,
    final_score := kv.2.fts.getD 0 * 0.6 + kv.2.sem.getD 0 * 0.4 }

/-- SqliteLocalSearchEngine::search_hybrid.  The enumeration order of the
combined_results HashMap is not specified by the source (std HashMap
iteration order); it is passed in as the enumeration function enum,
expected to permute the entries. -/
noncomputable def search_hybrid (bm25 : Bm25)
    (enum : List (String × FuseEntry) → List (String × FuseEntry))
    (eng : Engine) (query : String) (path_filters : Option (List String)) :
    List SearchResult :=
  match eng.embedder with
  | none => search_fulltext_only bm25 eng.state query path_filters
  | some embedder =>
    let fts_results := search_fts bm25 eng.state query path_filters
    let query_embedding := embed_text embedder query
    let semantic_results := search_by_embedding eng.state query_embedding path_filters
    let max_fts_score := maxOrDefault (fts_results.map (fun r => r.fts_score.getD 0)) 1
    let afterFts := fts_results.foldl (ftsStep max_fts_score) []
    let combined := semantic_results.foldl semStep afterFts
    let final_results := (enum combined).map fuseEntry
    List.insertionSort byFinalDesc final_results

/-! ### The search facade (sqlite.rs lines 607-629) -/

/-- The i8-to-usize cast in `top.unwrap_or(10) as usize`: sign-extend the
8-bit value and reinterpret as an unsigned 64-bit machine word. -/
def usizeOfI8 (t : Int) : ℕ := (t % (2 : Int) ^ 64).toNat

/-- The match over SearchType inside LocalSearch::search, before the
limit is applied. -/
noncomputable def search_dispatch (bm25 : Bm25)
    (enum : List (String × FuseEntry) → List (String × FuseEntry))
    (eng : Engine) (query : String) (search_type : SearchType)
    (path_filters : Option (List String)) : Except String (List SearchResult) :=
  match search_type with
  | SearchType.FullText =>
    Except.ok (search_fulltext_only bm25 eng.state query path_filters)
  | SearchType.Semantic =>
    if eng.embedder.isNone then Except.error "Semantic search requires an embedder"
    else search_semantic_only eng query path_filters
  | SearchType.Hybrid =>
    Except.ok (search_hybrid bm25 enum eng query path_filters)

/-- LocalSearch::search for SqliteLocalSearchEngine: dispatch on the
search type, then truncate to min(top.unwrap_or(10) as usize, len). -/
noncomputable def search (bm25 : Bm25)
    (enum : List (String × FuseEntry) → List (String × FuseEntry))
    (eng : Engine) (query : String) (search_type : SearchType)
    (top : Option Int) (path_filters : Option (List String)) :
    Except String (List SearchResult) :=
  match search_dispatch bm25 enum eng query search_type path_filters with
  | Except.error e => Except.error e
  | Except.ok res =>
    let limit := min (usizeOfI8 (top.getD 10)) res.length
    Except.ok (res.take limit)

/-! ### Write path (DocumentIndexer impl, sqlite.rs lines 441-604) -/

/-- DocumentIndexer::insert_document: INSERT into documents (failing on a
duplicate path, the primary key of the table), then the embedding when an
embedder is configured (failing on a duplicate embedding path), then the
FTS row.  The engine state after the call is returned alongside the
result; a failing step aborts the remaining steps but keeps the writes
already performed (there is no multi-statement transaction). -/
noncomputable def insert_document (embedder : Option Embedder) (s : EngineState)
    (request : DocumentRequest) (now : ℝ) : Except String Unit × EngineState :=
  if s.documents.any (fun d => d.path = request.path) then
    (Except.error "Failed to insert document: UNIQUE constraint failed", s)
  else
    let doc : Document := { path := request.path, content := request.content,
                            metadata := request.metadata, createdAt := now, updatedAt := now }
    let s1 := { s with documents := s.documents ++ [doc] }
    match embedder with
    | some m =>
      if s1.document_embeddings.any (fun e => e.1 = request.path) then
        (Except.error "Failed to insert embedding: UNIQUE constraint failed", s1)
      else
        let s2 := { s1 with document_embeddings :=
          s1.document_embeddings ++ [(request.path, embed_text m request.content)] }
        (Except.ok (), { s2 with documents_fts := s2.documents_fts ++ [(request.path, request.content)] })
    | none =>
      (Except.ok (), { s1 with documents_fts := s1.documents_fts ++ [(request.path, request.content)] })

/-- DELETE FROM document_embeddings WHERE path = ?1. -/
def delete_embedding_rows (s : EngineState) (path : String) : EngineState :=
  { s with document_embeddings := s.document_embeddings.filter (fun e => e.1 ≠ path) }

/-- DELETE FROM documents_fts WHERE path = ?1. -/
def delete_fts_rows (s : EngineState) (path : String) : EngineState :=
  { s with documents_fts := s.documents_fts.filter (fun e => e.1 ≠ path) }

/-- DELETE FROM documents WHERE path = ?1. -/
def delete_document_row (s : EngineState) (path : String) : EngineState :=
  { s with documents := s.documents.filter (fun d => d.path ≠ path) }

/-- DocumentIndexer::delete_document (sqlite.rs lines 548-581): delete
the embedding row (only when an embedder is configured), then the FTS
row, then the document row; a DELETE matching no rows is not an error. -/
def delete_document (embedder : Option Embedder) (s : EngineState) (path : String) :
    Except String EngineState :=
  let s1 := if embedder.isSome then delete_embedding_rows s path else s
  let s2 := delete_fts_rows s1 path
  Except.ok (delete_document_row s2 path)

/-- DocumentIndexer::stats (sqlite.rs lines 598-604): SELECT COUNT(*)
FROM documents. -/
def stats (s : EngineState) : Int := s.documents.length

/-! ### General helper lemmas -/

theorem sum_map_div (l : List ℝ) (c : ℝ) :
    (l.map (fun x => x / c)).sum = l.sum / c := by
  induction l with
  | nil => simp
  | cons x xs ih => simp [ih, add_div]

theorem zipWith_mul_self (v : List ℝ) :
    List.zipWith (fun x y => x * y) v v = v.map (fun x => x * x) := by
  induction v with
  | nil => rfl
  | cons x xs ih => simp [ih]

theorem sum_squares_nonneg (v : List ℝ) : 0 ≤ (v.map (fun x => x * x)).sum :=
  List.sum_nonneg (by
    intro x hx
    obtain ⟨y, _, rfl⟩ := List.mem_map.mp hx
    exact mul_self_nonneg y)

theorem l2norm_nonneg (v : List ℝ) : 0 ≤ l2norm v := Real.sqrt_nonneg _

theorem l2norm_mul_self (v : List ℝ) :
    l2norm v * l2norm v = (v.map (fun x => x * x)).sum :=
  Real.mul_self_sqrt (sum_squares_nonneg v)

theorem notMem_map_filter_key {α : Type} (key : α → String) (l : List α) (p : String) :
    p ∉ (l.filter (fun x => key x ≠ p)).map key := by
  intro hmem
  obtain ⟨x, hx, hkey⟩ := List.mem_map.mp hmem
  have hpred := List.of_mem_filter hx
  simp only [ne_eq, decide_not, Bool.not_eq_true', decide_eq_false_iff_not] at hpred
  exact hpred hkey

theorem filter_key_eq_self {α : Type} (key : α → String) (l : List α) (p : String)
    (h : p ∉ l.map key) : l.filter (fun x => key x ≠ p) = l := by
  apply List.filter_eq_self.mpr
  intro x hx
  simp only [ne_eq, decide_not, Bool.not_eq_true', decide_eq_false_iff_not]
  intro hk
  exact h (hk ▸ List.mem_map_of_mem key hx)

/-! ### C9: cosine similarity -/

/-- C9: cosine_similarity returns exactly 0 when the two vectors have
different lengths; on equal lengths it is the plain dot product, so a
unit-L2-norm vector scores exactly 1 against itself and two orthogonal
equal-length vectors score exactly 0. -/
theorem C9_cosine_similarity :
    (∀ a b : List ℝ, a.length ≠ b.length → cosine_similarity a b = 0) ∧
    (∀ a b : List ℝ, a.length = b.length →
      cosine_similarity a b = (List.zipWith (fun x y => x * y) a b).sum) ∧
    (∀ v : List ℝ, l2norm v = 1 → cosine_similarity v v = 1) ∧
    (∀ a b : List ℝ, a.length = b.length →
      (List.zipWith (fun x y => x * y) a b).sum = 0 → cosine_similarity a b = 0) := by
  refine ⟨?_, ?_, ?_, ?_⟩
  · intro a b h
    simp [cosine_similarity, h]
  · intro a b h
    simp [cosine_similarity, h]
  · intro v hv
    have h2 : (v.map (fun x => x * x)).sum = 1 := by
      rw [← l2norm_mul_self, hv, mul_one]
    simp [cosine_similarity, zipWith_mul_self, h2]
  · intro a b h hz
    simp [cosine_similarity, h, hz]

/-- C9 witness: the theorem applied at concrete vectors. -/
theorem C9_cosine_similarity_witness :
    cosine_similarity [(1 : ℝ), 0] [1] = 0 ∧
    cosine_similarity [(1 : ℝ), 0] [0, 1] =
      (List.zipWith (fun x y => x * y) [(1 : ℝ), 0] [0, 1]).sum ∧
    cosine_similarity [(1 : ℝ), 0] [1, 0] = 1 ∧
    cosine_similarity [(1 : ℝ), 0] [0, 1] = 0 := by
  have hnorm : l2norm [(1 : ℝ), 0] = 1 := by
    have : (([(1 : ℝ), 0]).map (fun x => x * x)).sum = 1 := by norm_num
    rw [l2norm, this, Real.sqrt_one]
  exact ⟨C9_cosine_similarity.1 [1, 0] [1] (by norm_num),
    C9_cosine_similarity.2.1 [1, 0] [0, 1] (by norm_num),
    C9_cosine_similarity.2.2.1 [1, 0] hnorm,
    C9_cosine_similarity.2.2.2 [1, 0] [0, 1] (by norm_num) (by norm_num)⟩

/-! ### C8: write-time L2 normalization -/

/-- C8: a vector whose L2 norm is at least 1e-5 is stored divided by its
norm and the stored vector has L2 norm exactly 1; a vector with a
smaller norm is stored unchanged; embed_text normalizes exactly once at
write time, so a successful insert stores normalize_l2 of the raw model
output, and query-time cosine_similarity is the raw dot product with no
re-normalization. -/
theorem C8_write_time_normalization :
    (∀ v : List ℝ, 1e-5 ≤ l2norm v →
      normalize_l2 v = v.map (fun x => x / l2norm v) ∧ l2norm (normalize_l2 v) = 1) ∧
    (∀ v : List ℝ, l2norm v < 1e-5 → normalize_l2 v = v) ∧
    (∀ (m : Embedder) (t : String), embed_text m t = normalize_l2 (m t)) ∧
    (∀ (m : Embedder) (s : EngineState) (req : DocumentRequest) (now : ℝ) (u : Unit),
      (insert_document (some m) s req now).1 = Except.ok u →
      (insert_document (some m) s req now).2.document_embeddings =
        s.document_embeddings ++ [(req.path, normalize_l2 (m req.content))]) ∧
    (∀ a b : List ℝ, a.length = b.length →
      cosine_similarity a b = (List.zipWith (fun x y => x * y) a b).sum) := by
  refine ⟨?_, ?_, ?_, ?_, ?_⟩
  · intro v hv
    have hnotlt : ¬ l2norm v < 1e-5 := not_lt.mpr hv
    have hpos : 0 < l2norm v := lt_of_lt_of_le (by norm_num) hv
    refine ⟨by rw [normalize_l2, if_neg hnotlt], ?_⟩
    rw [normalize_l2, if_neg hnotlt]
    have hnn : l2norm v * l2norm v = (v.map (fun x => x * x)).sum := l2norm_mul_self v
    rw [l2norm, List.map_map]
    have hcomp : ((fun x => x * x) ∘ fun x => x / l2norm v) =
        fun x => (x * x) / (l2norm v * l2norm v) := by
      funext x
      simp [Function.comp, div_mul_div_comm]
    rw [hcomp]
    have hsum : (v.map (fun x => x * x / (l2norm v * l2norm v))).sum =
        (v.map (fun x => x * x)).sum / (l2norm v * l2norm v) := by
      rw [← sum_map_div, List.map_map]
      rfl
    rw [hsum, ← hnn, div_self (ne_of_gt (mul_pos hpos hpos)), Real.sqrt_one]
  · intro v hv
    rw [normalize_l2, if_pos hv]
  · intro m t
    rfl
  · intro m s req now u hok
    by_cases hdup : s.documents.any (fun d => d.path = req.path)
    · rw [insert_document, if_pos hdup] at hok
      exact absurd hok (by simp)
    · rw [insert_document, if_neg hdup] at hok ⊢
      simp only at hok ⊢
      by_cases hedup : (s.document_embeddings.any (fun e => e.1 = req.path))
      · rw [if_pos hedup] at hok
        exact absurd hok (by simp)
      · rw [if_neg hedup]
        rfl
  · intro a b h
    simp [cosine_similarity, h]

/-- C8 witness: the theorem applied at concrete vectors, a concrete
embedder and a concrete empty store. -/
theorem C8_write_time_normalization_witness :
    (normalize_l2 [(3 : ℝ), 4] = ([(3 : ℝ), 4]).map (fun x => x / l2norm [(3 : ℝ), 4]) ∧
      l2norm (normalize_l2 [(3 : ℝ), 4]) = 1) ∧
    normalize_l2 [(0 : ℝ)] = [(0 : ℝ)] ∧
    (insert_document (some (fun _ => [(1 : ℝ), 0])) ⟨[], [], []⟩ ⟨"a", "c", none⟩ 0).2.document_embeddings =
      ([] : List (String × List ℝ)) ++ [("a", normalize_l2 [(1 : ℝ), 0])] := by
  have h25 : l2norm [(3 : ℝ), 4] = 5 := by
    have : (([(3 : ℝ), 4]).map (fun x => x * x)).sum = 25 := by norm_num
    rw [l2norm, this]
    rw [show (25 : ℝ) = 5 ^ 2 by norm_num]
    exact Real.sqrt_sq (by norm_num)
  have h0 : l2norm [(0 : ℝ)] = 0 := by
    have : (([(0 : ℝ)]).map (fun x => x * x)).sum = 0 := by norm_num
    rw [l2norm, this, Real.sqrt_zero]
  have hins : (insert_document (some (fun _ => [(1 : ℝ), 0])) ⟨[], [], []⟩ ⟨"a", "c", none⟩ 0).1 =
      Except.ok () := by
    rw [insert_document, if_neg (by simp)]
    simp only
    rw [if_neg (by simp)]
  refine ⟨C8_write_time_normalization.1 [(3 : ℝ), 4] (by rw [h25]; norm_num), ?_, ?_⟩
  · exact C8_write_time_normalization.2.1 [(0 : ℝ)] (by rw [h0]; norm_num)
  · have := C8_write_time_normalization.2.2.2.1 (fun _ => [(1 : ℝ), 0]) ⟨[], [], []⟩
      ⟨"a", "c", none⟩ 0 () hins
    simpa using this

/-! ### C4: duplicate insert rejection -/

/-- C4: inserting a path already present in the documents table fails
with the duplicate-key error, and the failed call leaves the entire
store (all three tables) unchanged. -/
theorem C4_duplicate_insert (embedder : Option Embedder) (s : EngineState)
    (req : DocumentRequest) (now : ℝ)
    (h : req.path ∈ s.documents.map Document.path) :
    (insert_document embedder s req now).1 =
      Except.error "Failed to insert document: UNIQUE constraint failed" ∧
    (insert_document embedder s req now).2 = s := by
  have hany : s.documents.any (fun d => d.path = req.path) = true := by
    rw [List.any_eq_true]
    obtain ⟨d, hd, hpath⟩ := List.mem_map.mp h
    exact ⟨d, hd, by simp [hpath]⟩
  rw [insert_document, if_pos hany]
  exact ⟨rfl, rfl⟩

/-- C4 witness: after a successful insert into the empty store, a second
insert of the same path fails and changes nothing. -/
theorem C4_duplicate_insert_witness :
    (insert_document none
        (insert_document none ⟨[], [], []⟩ ⟨"a", "c1", none⟩ 0).2 ⟨"a", "c2", none⟩ 1).1 =
      Except.error "Failed to insert document: UNIQUE constraint failed" ∧
    (insert_document none
        (insert_document none ⟨[], [], []⟩ ⟨"a", "c1", none⟩ 0).2 ⟨"a", "c2", none⟩ 1).2 =
      (insert_document none ⟨[], [], []⟩ ⟨"a", "c1", none⟩ 0).2 := by
  have hs : (insert_document none ⟨[], [], []⟩ ⟨"a", "c1", none⟩ 0).2 =
      ⟨[⟨"a", "c1", none, 0, 0⟩], [], [("a", "c1")]⟩ := by
    rw [insert_document, if_neg (by simp)]
    rfl
  apply C4_duplicate_insert
  rw [hs]
  simp

/-! ### C5: delete ordering and idempotence -/

/-- C5: delete removes the embedding row (when an embedder is
configured), then the FTS row, then the document row, in that order;
after a delete the path is gone from the affected tables; deleting an
absent path succeeds and changes nothing; and a second delete of the
same path succeeds, returns the same state, and leaves the document
count unchanged. -/
theorem C5_delete (embedder : Option Embedder) (s : EngineState) (p : String) :
    (embedder.isSome = true →
      delete_document embedder s p =
        Except.ok (delete_document_row (delete_fts_rows (delete_embedding_rows s p) p) p)) ∧
    (∀ s', delete_document embedder s p = Except.ok s' →
      (embedder.isSome = true → p ∉ s'.document_embeddings.map Prod.fst) ∧
      p ∉ s'.documents_fts.map Prod.fst ∧
      p ∉ s'.documents.map Document.path) ∧
    (p ∉ s.documents.map Document.path → p ∉ s.document_embeddings.map Prod.fst →
      p ∉ s.documents_fts.map Prod.fst → delete_document embedder s p = Except.ok s) ∧
    (∀ s', delete_document embedder s p = Except.ok s' →
      delete_document embedder s' p = Except.ok s' ∧ stats s' = stats s') := by
  refine ⟨?_, ?_, ?_, ?_⟩
  · intro hsome
    rw [delete_document, if_pos hsome]
  · intro s' hs'
    rw [delete_document] at hs'
    have hs'' := (Except.ok.injEq _ _).mp hs'
    subst hs''
    refine ⟨fun hsome => ?_, ?_, ?_⟩
    · rw [if_pos hsome]
      exact notMem_map_filter_key Prod.fst _ p
    · by_cases hsome : embedder.isSome = true
      · rw [if_pos hsome]
        exact notMem_map_filter_key Prod.fst _ p
      · rw [if_neg hsome]
        exact notMem_map_filter_key Prod.fst _ p
    · by_cases hsome : embedder.isSome = true
      · rw [if_pos hsome]
        exact notMem_map_filter_key Document.path _ p
      · rw [if_neg hsome]
        exact notMem_map_filter_key Document.path _ p
  · intro hdoc hemb hfts
    rw [delete_document]
    have h1 : (if embedder.isSome then delete_embedding_rows s p else s) = s := by
      by_cases hsome : embedder.isSome = true
      · rw [if_pos hsome, delete_embedding_rows, filter_key_eq_self Prod.fst _ p hemb]
      · rw [if_neg hsome]
    rw [h1, delete_fts_rows, filter_key_eq_self Prod.fst _ p hfts,
      delete_document_row, filter_key_eq_self Document.path _ p hdoc]
  · intro s' hs'
    rw [delete_document] at hs'
    have hs'' := (Except.ok.injEq _ _).mp hs'
    refine ⟨?_, rfl⟩
    rw [delete_document]
    have hfts' : p ∉ s'.documents_fts.map Prod.fst := by
      subst hs''
      by_cases hsome : embedder.isSome = true
      · rw [if_pos hsome]; exact notMem_map_filter_key Prod.fst _ p
      · rw [if_neg hsome]; exact notMem_map_filter_key Prod.fst _ p
    have hdoc' : p ∉ s'.documents.map Document.path := by
      subst hs''
      by_cases hsome : embedder.isSome = true
      · rw [if_pos hsome]; exact notMem_map_filter_key Document.path _ p
      · rw [if_neg hsome]; exact notMem_map_filter_key Document.path _ p
    have h1 : (if embedder.isSome then delete_embedding_rows s' p else s') = s' := by
      by_cases hsome : embedder.isSome = true
      · rw [if_pos hsome, delete_embedding_rows]
        have hemb' : p ∉ s'.document_embeddings.map Prod.fst := by
          subst hs''
          rw [if_pos hsome]
          exact notMem_map_filter_key Prod.fst _ p
        rw [filter_key_eq_self Prod.fst _ p hemb']
      · rw [if_neg hsome]
    rw [h1, delete_fts_rows, filter_key_eq_self Prod.fst _ p hfts',
      delete_document_row, filter_key_eq_self Document.path _ p hdoc']

/-- C5 witness: the theorem applied at a concrete one-document store
with an embedder configured. -/
theorem C5_delete_witness :
    delete_document (some (fun _ => [(1 : ℝ)])) ⟨[⟨"a", "c", none, 0, 0⟩], [("a", [1])], [("a", "c")]⟩ "a" =
      Except.ok (delete_document_row (delete_fts_rows (delete_embedding_rows
        ⟨[⟨"a", "c", none, 0, 0⟩], [("a", [1])], [("a", "c")]⟩ "a") "a") "a") ∧
    delete_document (some (fun _ => [(1 : ℝ)])) ⟨[⟨"b", "c", none, 0, 0⟩], [("b", [1])], [("b", "c")]⟩ "a" =
      Except.ok ⟨[⟨"b", "c", none, 0, 0⟩], [("b", [1])], [("b", "c")]⟩ := by
  constructor
  · exact (C5_delete (some (fun _ => [(1 : ℝ)])) _ "a").1 rfl
  · exact (C5_delete (some (fun _ => [(1 : ℝ)])) _ "a").2.2.1
      (by simp) (by simp) (by simp)

/-! ### C10: limiting happens after fusion and sorting -/

theorem take_min_length (l : List SearchResult) (k : ℕ) :
    l.take (min k l.length) = l.take k := by
  rcases le_total k l.length with h | h
  · rw [min_eq_left h]
  · rw [min_eq_right h, List.take_length, List.take_of_length_le h]

/-- C10: the facade applies the result-count limit only to the fully
fused and sorted candidate list produced by the mode dispatch: a
successful search returns exactly the first elements of that list, and
omitting the top parameter behaves exactly like top = 10. -/
theorem C10_limit_after_fusion (bm25 : Bm25)
    (enum : List (String × FuseEntry) → List (String × FuseEntry))
    (eng : Engine) (q : String) (ty : SearchType) (top : Option Int)
    (pf : Option (List String)) :
    (∀ res, search_dispatch bm25 enum eng q ty pf = Except.ok res →
      search bm25 enum eng q ty top pf =
        Except.ok (res.take (usizeOfI8 (top.getD 10)))) ∧
    search bm25 enum eng q ty none pf = search bm25 enum eng q ty (some 10) pf := by
  constructor
  · intro res h
    rw [search, h]
    simp only
    rw [take_min_length]
  · rfl

/-- C10 witness: a FullText search on the empty store succeeds with the
empty candidate list, and the facade truncates it as the theorem
states. -/
theorem C10_limit_after_fusion_witness :
    search (fun _ _ => none) id ⟨⟨[], [], []⟩, none⟩ "q" SearchType.FullText (some 3) none =
      Except.ok (([] : List SearchResult).take (usizeOfI8 ((some (3 : Int)).getD 10))) := by
  have hd : search_dispatch (fun _ _ => none) id ⟨⟨[], [], []⟩, none⟩ "q" SearchType.FullText none =
      Except.ok [] := by
    rw [search_dispatch]
    simp [search_fulltext_only, search_fts, ftsRows]
  exact (C10_limit_after_fusion (fun _ _ => none) id ⟨⟨[], [], []⟩, none⟩ "q"
    SearchType.FullText (some 3) none).1 [] hd

/-! ### C3: degradation without an embedder -/

/-- C3: with no embedder configured, a Semantic search returns the
not-configured error for every query, while a Hybrid search succeeds and
returns exactly the FullText (lexical-only) output. -/
theorem C3_no_embedder (bm25 : Bm25)
    (enum : List (String × FuseEntry) → List (String × FuseEntry))
    (eng : Engine) (q : String) (top : Option Int) (pf : Option (List String))
    (h : eng.embedder = none) :
    search bm25 enum eng q SearchType.Semantic top pf =
      Except.error "Semantic search requires an embedder" ∧
    search bm25 enum eng q SearchType.Hybrid top pf =
      search bm25 enum eng q SearchType.FullText top pf ∧
    (∃ out, search bm25 enum eng q SearchType.Hybrid top pf = Except.ok out) := by
  have hsem : search_dispatch bm25 enum eng q SearchType.Semantic pf =
      Except.error "Semantic search requires an embedder" := by
    rw [search_dispatch]
    rw [if_pos (by rw [h]; rfl)]
  have hhyb : search_hybrid bm25 enum eng q pf = search_fulltext_only bm25 eng.state q pf := by
    rw [search_hybrid, h]
  refine ⟨?_, ?_, ?_⟩
  · rw [search, hsem]
  · rw [search, search, search_dispatch, search_dispatch, hhyb]
  · rw [search, search_dispatch, hhyb]
    exact ⟨_, rfl⟩

/-- C3 witness: the theorem applied to a concrete engine with no
embedder. -/
theorem C3_no_embedder_witness :
    search (fun _ _ => none) id ⟨⟨[], [], []⟩, none⟩ "q" SearchType.Semantic (some 5) none =
      Except.error "Semantic search requires an embedder" ∧
    search (fun _ _ => none) id ⟨⟨[], [], []⟩, none⟩ "q" SearchType.Hybrid (some 5) none =
      search (fun _ _ => none) id ⟨⟨[], [], []⟩, none⟩ "q" SearchType.FullText (some 5) none :=
  ⟨(C3_no_embedder (fun _ _ => none) id ⟨⟨[], [], []⟩, none⟩ "q" (some 5) none rfl).1,
   (C3_no_embedder (fun _ _ => none) id ⟨⟨[], [], []⟩, none⟩ "q" (some 5) none rfl).2.1⟩

/-! ### Softmax lemmas -/

theorem exp_list_sum_pos (s0 : ℝ) (rest : List ℝ) (M : ℝ) :
    0 < ((s0 :: rest).map (fun s => Real.exp (s - M))).sum := by
  apply List.sum_pos
  · intro x hx
    obtain ⟨y, _, rfl⟩ := List.mem_map.mp hx
    exact Real.exp_pos _
  · simp

theorem sum_map_div_fn (l : List ℝ) (f : ℝ → ℝ) (c : ℝ) :
    (l.map (fun s => f s / c)).sum = (l.map f).sum / c := by
  rw [show (fun s => f s / c) = (fun x => x / c) ∘ f from rfl, ← List.map_map, sum_map_div]

/-- Normal form of softmax on a non-empty list: since every exponential
is positive the fallback branch is dead and each entry is its
exponential divided by the total. -/
theorem softmax_eq_map (s0 : ℝ) (rest : List ℝ) :
    softmax (s0 :: rest) =
      (s0 :: rest).map (fun s =>
        Real.exp (s - rest.foldl max s0) /
          ((s0 :: rest).map (fun t => Real.exp (t - rest.foldl max s0))).sum) := by
  rw [softmax]
  simp only [List.map_map]
  apply List.map_congr_left
  intro s _
  simp only [Function.comp]
  rw [if_pos (exp_list_sum_pos s0 rest _)]

theorem softmax_length (scores : List ℝ) : (softmax scores).length = scores.length := by
  cases scores with
  | nil => rfl
  | cons s0 rest => rw [softmax_eq_map, List.length_map]

theorem softmax_sum_eq_one (scores : List ℝ) (h : scores ≠ []) :
    (softmax scores).sum = 1 := by
  cases scores with
  | nil => exact absurd rfl h
  | cons s0 rest =>
    rw [softmax_eq_map, sum_map_div_fn]
    exact div_self (ne_of_gt (exp_list_sum_pos s0 rest _))

theorem softmax_mem_range (scores : List ℝ) (x : ℝ) (hx : x ∈ softmax scores) :
    0 ≤ x ∧ x ≤ 1 := by
  cases scores with
  | nil => simp [softmax] at hx
  | cons s0 rest =>
    rw [softmax_eq_map] at hx
    obtain ⟨s, hs, rfl⟩ := List.mem_map.mp hx
    have hSpos : 0 < ((s0 :: rest).map (fun t => Real.exp (t - rest.foldl max s0))).sum :=
      exp_list_sum_pos s0 rest _
    constructor
    · exact div_nonneg (Real.exp_pos _).le hSpos.le
    · rw [div_le_one hSpos]
      exact List.single_le_sum
        (fun y hy => by
          obtain ⟨z, _, rfl⟩ := List.mem_map.mp hy
          exact (Real.exp_pos _).le) _
        (List.mem_map_of_mem _ hs)

theorem softmax_strict_order (scores : List ℝ) (i j : ℕ)
    (hi : i < scores.length) (hj : j < scores.length)
    (hlt : scores.getD i 0 < scores.getD j 0) :
    (softmax scores).getD i 0 < (softmax scores).getD j 0 := by
  cases scores with
  | nil => simp at hi
  | cons s0 rest =>
    rw [softmax_eq_map]
    have hi2 : i < ((s0 :: rest).map (fun s =>
        Real.exp (s - rest.foldl max s0) /
          ((s0 :: rest).map (fun t => Real.exp (t - rest.foldl max s0))).sum)).length := by
      rw [List.length_map]; exact hi
    have hj2 : j < ((s0 :: rest).map (fun s =>
        Real.exp (s - rest.foldl max s0) /
          ((s0 :: rest).map (fun t => Real.exp (t - rest.foldl max s0))).sum)).length := by
      rw [List.length_map]; exact hj
    rw [List.getD_eq_getElem?_getD, List.getElem?_eq_getElem hi2,
      List.getD_eq_getElem?_getD _ j, List.getElem?_eq_getElem hj2]
    rw [List.getD_eq_getElem?_getD, List.getElem?_eq_getElem hi,
      List.getD_eq_getElem?_getD _ j, List.getElem?_eq_getElem hj] at hlt
    simp only [List.getElem_map, Option.getD_some] at *
    have hSpos : 0 < ((s0 :: rest).map (fun t => Real.exp (t - rest.foldl max s0))).sum :=
      exp_list_sum_pos s0 rest _
    exact div_lt_div_of_pos_right (Real.exp_lt_exp.mpr (by linarith)) hSpos


theorem foldl_max_replicate (k : ℕ) (c : ℝ) : (List.replicate k c).foldl max c = c := by
  induction k with
  | zero => rfl
  | succ k2 ih => rw [List.replicate_succ, List.foldl_cons, max_self]; exact ih

theorem softmax_replicate (n : ℕ) (c : ℝ) (hn : n ≠ 0) :
    softmax (List.replicate n c) = List.replicate n (1 / (n : ℝ)) := by
  cases n with
  | zero => exact absurd rfl hn
  | succ k =>
    rw [List.replicate_succ, softmax_eq_map, foldl_max_replicate, ← List.replicate_succ]
    rw [List.map_replicate, List.map_replicate, sub_self, Real.exp_zero, List.sum_replicate,
      nsmul_eq_mul, mul_one]

theorem softmax_single (x : ℝ) : softmax [x] = [1] := by
  have h := softmax_replicate 1 x (by norm_num)
  simpa using h

theorem search_fts_no_match (bm25 : Bm25) (s : EngineState) (q : String)
    (pf : Option (List String)) (h : ∀ c, bm25 q c = none) :
    search_fts bm25 s q pf = [] := by
  have hrows : ftsRows bm25 s q pf = [] := by
    rw [ftsRows]
    apply List.filterMap_eq_nil_iff.mpr
    intro row _
    rw [h row.2]
  rw [search_fts, hrows]
  rfl

/-! ### C2: the softmax law -/

/-- C2: for every non-empty score list the softmax outputs sum to
exactly 1 (hence within 1e-10 of 1.0), a strictly larger input receives
a strictly larger output, a uniform list of length n maps to 1/n
everywhere, a singleton maps to exactly 1.0, and the empty candidate set
yields the empty (non-erroring) result, both for softmax itself and for
search_fts when no row matches the query. -/
theorem C2_softmax_law :
    (∀ scores : List ℝ, scores ≠ [] →
      (softmax scores).sum = 1 ∧ |(softmax scores).sum - 1| ≤ 1e-10) ∧
    (∀ (scores : List ℝ) (i j : ℕ), i < scores.length → j < scores.length →
      scores.getD i 0 < scores.getD j 0 →
      (softmax scores).getD i 0 < (softmax scores).getD j 0) ∧
    (∀ (n : ℕ) (c : ℝ), n ≠ 0 → softmax (List.replicate n c) = List.replicate n (1 / (n : ℝ))) ∧
    (∀ x : ℝ, softmax [x] = [1]) ∧
    softmax [] = [] ∧
    (∀ (bm25 : Bm25) (s : EngineState) (q : String) (pf : Option (List String)),
      (∀ c, bm25 q c = none) → search_fts bm25 s q pf = []) := by
  refine ⟨?_, ?_, softmax_replicate, softmax_single, rfl, search_fts_no_match⟩
  · intro scores h
    refine ⟨softmax_sum_eq_one scores h, ?_⟩
    rw [softmax_sum_eq_one scores h]
    norm_num
  · intro scores i j hi hj hlt
    exact softmax_strict_order scores i j hi hj hlt

/-- C2 witness: the theorem applied at concrete score lists and a
concrete engine state. -/
theorem C2_softmax_law_witness :
    ((softmax [(1 : ℝ), 2]).sum = 1 ∧ |(softmax [(1 : ℝ), 2]).sum - 1| ≤ 1e-10) ∧
    (softmax [(0 : ℝ), 1]).getD 0 0 < (softmax [(0 : ℝ), 1]).getD 1 0 ∧
    softmax (List.replicate 3 (2 : ℝ)) = List.replicate 3 (1 / (3 : ℝ)) ∧
    search_fts (fun _ _ => none) ⟨[], [], [("a", "c")]⟩ "q" none = [] := by
  refine ⟨C2_softmax_law.1 [(1 : ℝ), 2] (by simp), ?_, ?_, ?_⟩
  · exact C2_softmax_law.2.1 [(0 : ℝ), 1] 0 1 (by norm_num) (by norm_num) (by norm_num)
  · exact C2_softmax_law.2.2.1 3 2 (by norm_num)
  · exact C2_softmax_law.2.2.2.2.2 (fun _ _ => none) ⟨[], [], [("a", "c")]⟩ "q" none
      (fun _ => rfl)

/-! ### C6: path filter semantics -/

theorem startsWithChars_iff (f p : List Char) :
    startsWithChars f p = true ↔ ∃ r, p = f ++ r := by
  induction f generalizing p with
  | nil =>
    simp [startsWithChars]
  | cons a as ih =>
    cases p with
    | nil => simp [startsWithChars]
    | cons b bs =>
      simp only [startsWithChars, Bool.and_eq_true, decide_eq_true_eq, ih]
      constructor
      · rintro ⟨rfl, r, rfl⟩
        exact ⟨r, rfl⟩
      · rintro ⟨r, hr⟩
        rw [List.cons_append] at hr
        injection hr with h1 h2
        exact ⟨h1.symm, r, h2⟩

theorem containsSub_iff (f p : List Char) :
    containsSub f p = true ↔ ∃ l r, p = l ++ f ++ r := by
  induction p with
  | nil =>
    simp only [containsSub, Bool.or_eq_true, startsWithChars_iff]
    constructor
    · rintro (⟨r, hr⟩ | h)
      · exact ⟨[], r, by simpa using hr⟩
      · simp at h
    · rintro ⟨l, r, hr⟩
      left
      have h0 : l ++ (f ++ r) = [] := by
        rw [← List.append_assoc]
        exact hr.symm
      rcases List.append_eq_nil.mp h0 with ⟨hl, hfr⟩
      rcases List.append_eq_nil.mp hfr with ⟨hf, hrr⟩
      exact ⟨[], by simp [hf]⟩
  | cons b bs ih =>
    simp only [containsSub, Bool.or_eq_true, startsWithChars_iff, ih]
    constructor
    · rintro (⟨r, hr⟩ | ⟨l, r, hr⟩)
      · exact ⟨[], r, by simpa using hr⟩
      · refine ⟨b :: l, r, ?_⟩
        rw [hr]
        simp
    · rintro ⟨l, r, hr⟩
      cases l with
      | nil =>
        left
        exact ⟨r, by simpa using hr⟩
      | cons c cl =>
        right
        rw [List.cons_append, List.cons_append] at hr
        injection hr with h1 h2
        exact ⟨cl, r, by simpa using h2⟩

theorem pathFilterOk_iff (fs : List String) (hfs : fs ≠ []) (p : String) :
    pathFilterOk (some fs) p = true ↔
      ∃ f ∈ fs, ∃ l r, p.data = l ++ f.data ++ r := by
  rw [pathFilterOk]
  rw [if_neg (by simpa [List.isEmpty_iff] using hfs)]
  simp only [List.any_eq_true, likeMatch, containsSub_iff]

/-- The store with every row whose path fails the filter removed; used
to state that filtering happens before scoring and normalization. -/
def restrictState (fs : List String) (s : EngineState) : EngineState :=
  { documents := s.documents.filter (fun d => pathFilterOk (some fs) d.path),
    document_embeddings := s.document_embeddings.filter (fun e => pathFilterOk (some fs) e.1),
    documents_fts := s.documents_fts.filter (fun row => pathFilterOk (some fs) row.1) }

theorem findDoc_cons_self {d : Document} {p : String} (ds : List Document) (h : d.path = p) :
    findDoc (d :: ds) p = some d := by
  rw [findDoc]
  apply List.find?_cons_of_pos
  simp [h]

theorem findDoc_cons_ne {d : Document} {p : String} (ds : List Document) (h : ¬ d.path = p) :
    findDoc (d :: ds) p = findDoc ds p := by
  rw [findDoc, findDoc]
  apply List.find?_cons_of_neg
  simp [h]

theorem findDoc_filter (docs : List Document) (ok : String → Bool) (p : String) :
    findDoc (docs.filter (fun d => ok d.path)) p =
      if ok p then findDoc docs p else none := by
  induction docs with
  | nil => cases hp : ok p <;> simp [findDoc]
  | cons d ds ih =>
    rw [List.filter_cons]
    by_cases hok : ok d.path = true
    · rw [if_pos hok]
      by_cases hd : d.path = p
      · have hokp : ok p = true := hd ▸ hok
        rw [findDoc_cons_self _ hd, if_pos hokp, findDoc_cons_self _ hd]
      · rw [findDoc_cons_ne _ hd, ih]
        by_cases hokp : ok p = true
        · rw [if_pos hokp, if_pos hokp, findDoc_cons_ne _ hd]
        · rw [if_neg hokp, if_neg hokp]
    · rw [if_neg hok, ih]
      by_cases hd : d.path = p
      · have hokp : ¬ ok p = true := by rw [← hd]; exact hok
        rw [if_neg hokp, if_neg hokp]
      · by_cases hokp : ok p = true
        · rw [if_pos hokp, if_pos hokp, findDoc_cons_ne _ hd]
        · rw [if_neg hokp, if_neg hokp]

theorem lookupEmbedding_cons_self {e : String × List ℝ} {p : String}
    (es : List (String × List ℝ)) (h : e.1 = p) :
    lookupEmbedding (e :: es) p = some e.2 := by
  have hf : List.find? (fun x : String × List ℝ => x.1 = p) (e :: es) = some e := by
    apply List.find?_cons_of_pos
    simp [h]
  rw [lookupEmbedding, hf]
  rfl

theorem lookupEmbedding_cons_ne {e : String × List ℝ} {p : String}
    (es : List (String × List ℝ)) (h : ¬ e.1 = p) :
    lookupEmbedding (e :: es) p = lookupEmbedding es p := by
  have hf : List.find? (fun x : String × List ℝ => x.1 = p) (e :: es) =
      List.find? (fun x : String × List ℝ => x.1 = p) es := by
    apply List.find?_cons_of_neg
    simp [h]
  rw [lookupEmbedding, hf, lookupEmbedding]

theorem lookupEmbedding_filter (embs : List (String × List ℝ)) (ok : String → Bool) (p : String) :
    lookupEmbedding (embs.filter (fun e => ok e.1)) p =
      if ok p then lookupEmbedding embs p else none := by
  induction embs with
  | nil => cases hp : ok p <;> simp [lookupEmbedding]
  | cons e es ih =>
    rw [List.filter_cons]
    by_cases hok : ok e.1 = true
    · rw [if_pos hok]
      by_cases hd : e.1 = p
      · have hokp : ok p = true := hd ▸ hok
        rw [lookupEmbedding_cons_self _ hd, if_pos hokp, lookupEmbedding_cons_self _ hd]
      · rw [lookupEmbedding_cons_ne _ hd, ih]
        by_cases hokp : ok p = true
        · rw [if_pos hokp, if_pos hokp, lookupEmbedding_cons_ne _ hd]
        · rw [if_neg hokp, if_neg hokp]
    · rw [if_neg hok, ih]
      by_cases hd : e.1 = p
      · have hokp : ¬ ok p = true := by rw [← hd]; exact hok
        rw [if_neg hokp, if_neg hokp]
      · by_cases hokp : ok p = true
        · rw [if_pos hokp, if_pos hokp, lookupEmbedding_cons_ne _ hd]
        · rw [if_neg hokp, if_neg hokp]

theorem ftsRows_filter_aux (bm25 : Bm25) (docs : List Document)
    (fts : List (String × String)) (q : String) (fs : List String) :
    fts.filterMap (fun row =>
      match bm25 q row.2 with
      | none => none
      | some score =>
        match findDoc docs row.1 with
        | none => none
        | some d => if pathFilterOk (some fs) d.path then some (d, score) else none) =
    (fts.filter (fun row => pathFilterOk (some fs) row.1)).filterMap (fun row =>
      match bm25 q row.2 with
      | none => none
      | some score =>
        match findDoc (docs.filter (fun d => pathFilterOk (some fs) d.path)) row.1 with
        | none => none
        | some d => if pathFilterOk none d.path then some (d, score) else none) := by
  induction fts with
  | nil => rfl
  | cons row rest ih =>
    rw [List.filterMap_cons, List.filter_cons]
    by_cases hok : pathFilterOk (some fs) row.1 = true
    · rw [if_pos hok, List.filterMap_cons]
      have hhead : (match bm25 q row.2 with
          | none => none
          | some score =>
            match findDoc docs row.1 with
            | none => none
            | some d => if pathFilterOk (some fs) d.path then some (d, score) else none) =
          (match bm25 q row.2 with
          | none => none
          | some score =>
            match findDoc (docs.filter (fun d => pathFilterOk (some fs) d.path)) row.1 with
            | none => none
            | some d => if pathFilterOk none d.path then some (d, score) else none) := by
        cases hbm : bm25 q row.2 with
        | none => rfl
        | some score =>
          simp only
          rw [findDoc_filter docs _ row.1, if_pos hok]
          cases hfd : findDoc docs row.1 with
          | none => rfl
          | some d =>
            have hdp : d.path = row.1 := by
              rw [findDoc] at hfd
              have h2 := List.find?_some hfd
              simpa using h2
            simp only
            rw [if_pos (by rw [hdp]; exact hok), if_pos (by rfl)]
      rw [hhead, ih]
    · rw [if_neg hok]
      have hhead : (match bm25 q row.2 with
          | none => none
          | some score =>
            match findDoc docs row.1 with
            | none => none
            | some d => if pathFilterOk (some fs) d.path then some (d, score) else none) =
          (none : Option (Document × ℝ)) := by
        cases hbm : bm25 q row.2 with
        | none => rfl
        | some score =>
          simp only
          cases hfd : findDoc docs row.1 with
          | none => rfl
          | some d =>
            have hdp : d.path = row.1 := by
              rw [findDoc] at hfd
              have h2 := List.find?_some hfd
              simpa using h2
            simp only
            rw [if_neg (by rw [hdp]; exact hok)]
      rw [hhead, ih]

theorem embeddingRows_filter_aux (docs : List Document) (embs : List (String × List ℝ))
    (fs : List String) :
    docs.filterMap (fun d =>
      match lookupEmbedding embs d.path with
      | none => none
      | some v => if pathFilterOk (some fs) d.path then some (d, v) else none) =
    (docs.filter (fun d => pathFilterOk (some fs) d.path)).filterMap (fun d =>
      match lookupEmbedding (embs.filter (fun e => pathFilterOk (some fs) e.1)) d.path with
      | none => none
      | some v => if pathFilterOk none d.path then some (d, v) else none) := by
  induction docs with
  | nil => rfl
  | cons d ds ih =>
    rw [List.filterMap_cons, List.filter_cons]
    by_cases hok : pathFilterOk (some fs) d.path = true
    · rw [if_pos hok, List.filterMap_cons]
      have hhead : (match lookupEmbedding embs d.path with
          | none => none
          | some v => if pathFilterOk (some fs) d.path then some (d, v) else none) =
          (match lookupEmbedding (embs.filter (fun e => pathFilterOk (some fs) e.1)) d.path with
          | none => none
          | some v => if pathFilterOk none d.path then some (d, v) else none) := by
        rw [lookupEmbedding_filter embs _ d.path, if_pos hok]
        cases hle : lookupEmbedding embs d.path with
        | none => rfl
        | some v =>
          simp only
          rw [if_pos hok, if_pos (by rfl)]
      rw [hhead, ih]
    · rw [if_neg hok]
      have hhead : (match lookupEmbedding embs d.path with
          | none => none
          | some v => if pathFilterOk (some fs) d.path then some (d, v) else none) =
          (none : Option (Document × List ℝ)) := by
        cases hle : lookupEmbedding embs d.path with
        | none => rfl
        | some v =>
          simp only
          rw [if_neg hok]
      rw [hhead, ih]

theorem search_fts_restrict (bm25 : Bm25) (s : EngineState) (q : String) (fs : List String) :
    search_fts bm25 s q (some fs) = search_fts bm25 (restrictState fs s) q none := by
  have h : ftsRows bm25 s q (some fs) = ftsRows bm25 (restrictState fs s) q none := by
    rw [ftsRows, ftsRows]
    exact ftsRows_filter_aux bm25 s.documents s.documents_fts q fs
  rw [search_fts, search_fts, h]

theorem search_by_embedding_restrict (s : EngineState) (qe : List ℝ) (fs : List String) :
    search_by_embedding s qe (some fs) = search_by_embedding (restrictState fs s) qe none := by
  have h : embeddingRows s (some fs) = embeddingRows (restrictState fs s) none := by
    rw [embeddingRows, embeddingRows]
    exact embeddingRows_filter_aux s.documents s.document_embeddings fs
  rw [search_by_embedding, search_by_embedding, embeddingResults, embeddingResults, h]

/-- C6: a candidate passes the path filter iff its path contains at
least one of the filter strings as a contiguous substring (logical OR),
and the filter commutes with the whole lexical and semantic retrieval
pipelines: searching with the filter equals searching without any filter
over the store restricted to the paths that pass, so a filtered-out
document never contributes to similarity scoring, to the softmax
candidate set, or to the max-score normalization baseline. -/
theorem C6_path_filter (bm25 : Bm25) (s : EngineState) (q : String)
    (fs : List String) (hfs : fs ≠ []) :
    (∀ p : String, pathFilterOk (some fs) p = true ↔
      ∃ f ∈ fs, ∃ l r, p.data = l ++ f.data ++ r) ∧
    search_fts bm25 s q (some fs) = search_fts bm25 (restrictState fs s) q none ∧
    (∀ qe : List ℝ, search_by_embedding s qe (some fs) =
      search_by_embedding (restrictState fs s) qe none) :=
  ⟨fun p => pathFilterOk_iff fs hfs p,
   search_fts_restrict bm25 s q fs,
   fun qe => search_by_embedding_restrict s qe fs⟩

/-- C6 witness: the theorem applied to the concrete filter list ["a"]
and a concrete one-row store. -/
theorem C6_path_filter_witness :
    (∀ p : String, pathFilterOk (some ["a"]) p = true ↔
      ∃ f ∈ ["a"], ∃ l r, p.data = l ++ f.data ++ r) ∧
    search_fts (fun _ _ => some 1) ⟨[⟨"ab", "c", none, 0, 0⟩], [], [("ab", "c")]⟩ "q" (some ["a"]) =
      search_fts (fun _ _ => some 1)
        (restrictState ["a"] ⟨[⟨"ab", "c", none, 0, 0⟩], [], [("ab", "c")]⟩) "q" none ∧
    (∀ qe : List ℝ,
      search_by_embedding ⟨[⟨"ab", "c", none, 0, 0⟩], [], [("ab", "c")]⟩ qe (some ["a"]) =
        search_by_embedding (restrictState ["a"] ⟨[⟨"ab", "c", none, 0, 0⟩], [], [("ab", "c")]⟩)
          qe none) :=
  C6_path_filter (fun _ _ => some 1) ⟨[⟨"ab", "c", none, 0, 0⟩], [], [("ab", "c")]⟩ "q" ["a"]
    (by simp)

/-! ### Hybrid fusion machinery -/

theorem mem_zipWith {α β γ : Type} {f : α → β → γ} {l1 : List α} {l2 : List β} {c : γ}
    (h : c ∈ List.zipWith f l1 l2) : ∃ a ∈ l1, ∃ b ∈ l2, c = f a b := by
  induction l1 generalizing l2 with
  | nil => simp at h
  | cons a as ih =>
    cases l2 with
    | nil => simp at h
    | cons b bs =>
      rw [List.zipWith_cons_cons] at h
      rcases List.mem_cons.mp h with h1 | h2
      · exact ⟨a, by simp, b, by simp, h1⟩
      · obtain ⟨a2, ha, b2, hb, rfl⟩ := ih h2
        exact ⟨a2, by simp [ha], b2, by simp [hb], rfl⟩

theorem le_foldl_max_init (l : List ℝ) (a : ℝ) : a ≤ l.foldl max a := by
  induction l generalizing a with
  | nil => simp
  | cons b bs ih => exact le_trans (le_max_left a b) (ih (max a b))

theorem le_foldl_max_mem (l : List ℝ) (a x : ℝ) (hx : x ∈ l) : x ≤ l.foldl max a := by
  induction l generalizing a with
  | nil => simp at hx
  | cons b bs ih =>
    rcases List.mem_cons.mp hx with rfl | h
    · exact le_trans (le_max_right a x) (le_foldl_max_init bs (max a x))
    · exact ih (max a b) h

theorem le_maxOrDefault (l : List ℝ) (d x : ℝ) (hx : x ∈ l) : x ≤ maxOrDefault l d := by
  cases l with
  | nil => simp at hx
  | cons a as =>
    rw [maxOrDefault]
    rcases List.mem_cons.mp hx with rfl | h
    · exact le_foldl_max_init as x
    · exact le_foldl_max_mem as a x h

theorem normalized_score_bound (l : List ℝ) (x : ℝ) (hx : x ∈ l) (h0 : 0 ≤ x) :
    0 ≤ x / (if |maxOrDefault l 1| < 1e-5 then 1 else maxOrDefault l 1) ∧
    x / (if |maxOrDefault l 1| < 1e-5 then 1 else maxOrDefault l 1) ≤ 1 := by
  have hxm : x ≤ maxOrDefault l 1 := le_maxOrDefault l 1 x hx
  have hm0 : 0 ≤ maxOrDefault l 1 := le_trans h0 hxm
  have habs : |maxOrDefault l 1| = maxOrDefault l 1 := abs_of_nonneg hm0
  by_cases hc : |maxOrDefault l 1| < 1e-5
  · rw [if_pos hc, div_one]
    have h15 : (1e-5 : ℝ) ≤ 1 := by norm_num
    exact ⟨h0, by linarith⟩
  · rw [if_neg hc]
    have hge : 1e-5 ≤ |maxOrDefault l 1| := not_lt.mp hc
    have hpos : 0 < maxOrDefault l 1 := by
      rw [← habs]
      have : (0 : ℝ) < 1e-5 := by norm_num
      linarith
    exact ⟨div_nonneg h0 hpos.le, (div_le_one hpos).mpr hxm⟩

theorem nodup_filterMap_key {α β : Type} (l : List α) (f : α → Option β) (key : α → β)
    (hf : ∀ x y, f x = some y → y = key x) (h : (l.map key).Nodup) :
    (l.filterMap f).Nodup := by
  induction l with
  | nil => simp
  | cons a as ih =>
    rw [List.filterMap_cons]
    rw [List.map_cons, List.nodup_cons] at h
    cases hfa : f a with
    | none => exact ih h.2
    | some b =>
      rw [List.nodup_cons]
      refine ⟨?_, ih h.2⟩
      intro hb
      obtain ⟨x, hx, hfx⟩ := List.mem_filterMap.mp hb
      have h1 : b = key a := hf a b hfa
      have h2 : b = key x := hf x b hfx
      exact h.1 (by rw [← h1, h2]; exact List.mem_map_of_mem key hx)

theorem zipWith_update_map_final (results : List SearchResult) (ns : List ℝ)
    (h : results.length = ns.length) :
    (List.zipWith (fun r ns => { r with fts_score := some ns, final_score := ns })
      results ns).map SearchResult.final_score = ns := by
  induction results generalizing ns with
  | nil =>
    cases ns with
    | nil => rfl
    | cons n nss => simp at h
  | cons r rs ih =>
    cases ns with
    | nil => simp at h
    | cons n nss =>
      rw [List.zipWith_cons_cons, List.map_cons, ih nss (by simpa using h)]

theorem zipWith_update_map_path (results : List SearchResult) (ns : List ℝ)
    (h : results.length = ns.length) :
    (List.zipWith (fun r ns => { r with fts_score := some ns, final_score := ns })
      results ns).map SearchResult.path = results.map SearchResult.path := by
  induction results generalizing ns with
  | nil => rfl
  | cons r rs ih =>
    cases ns with
    | nil => simp at h
    | cons n nss =>
      rw [List.zipWith_cons_cons, List.map_cons, List.map_cons, ih nss (by simpa using h)]

/-- search_fts without the empty-candidate branch: when the candidate
set is empty both branches produce the empty list, so the zipWith form
holds unconditionally. -/
theorem search_fts_eq (bm25 : Bm25) (s : EngineState) (q : String)
    (pf : Option (List String)) :
    search_fts bm25 s q pf =
      List.zipWith (fun r ns => { r with fts_score := some ns, final_score := ns })
        ((List.insertionSort byBm25Asc (ftsRows bm25 s q pf)).map ftsRowMapper)
        (softmax (((List.insertionSort byBm25Asc (ftsRows bm25 s q pf)).map ftsRowMapper).map
          (fun r => r.fts_score.getD 0))) := by
  have h : search_fts bm25 s q pf =
      (if (((List.insertionSort byBm25Asc (ftsRows bm25 s q pf)).map ftsRowMapper).map
          (fun r => r.fts_score.getD 0)).isEmpty = true
       then (List.insertionSort byBm25Asc (ftsRows bm25 s q pf)).map ftsRowMapper
       else List.zipWith (fun r ns => { r with fts_score := some ns, final_score := ns })
         ((List.insertionSort byBm25Asc (ftsRows bm25 s q pf)).map ftsRowMapper)
         (softmax (((List.insertionSort byBm25Asc (ftsRows bm25 s q pf)).map ftsRowMapper).map
           (fun r => r.fts_score.getD 0)))) := rfl
  rw [h]
  by_cases hc : (((List.insertionSort byBm25Asc (ftsRows bm25 s q pf)).map ftsRowMapper).map
      (fun r => r.fts_score.getD 0)).isEmpty = true
  · rw [if_pos hc]
    have h2 : (List.insertionSort byBm25Asc (ftsRows bm25 s q pf)).map ftsRowMapper = [] :=
      List.map_eq_nil_iff.mp (List.isEmpty_iff.mp hc)
    rw [h2]
    rfl
  · rw [if_neg hc]

theorem search_fts_len (bm25 : Bm25) (s : EngineState) (q : String)
    (pf : Option (List String)) :
    ((List.insertionSort byBm25Asc (ftsRows bm25 s q pf)).map ftsRowMapper).length =
      (softmax (((List.insertionSort byBm25Asc (ftsRows bm25 s q pf)).map ftsRowMapper).map
        (fun r => r.fts_score.getD 0))).length := by
  rw [softmax_length]
  simp

/-- Every search_fts result carries a softmax-normalized fts score in
[0, 1] and no semantic score. -/
theorem search_fts_mem (bm25 : Bm25) (s : EngineState) (q : String)
    (pf : Option (List String)) (r : SearchResult) (hr : r ∈ search_fts bm25 s q pf) :
    ∃ v, r.fts_score = some v ∧ 0 ≤ v ∧ v ≤ 1 ∧ r.final_score = v ∧
      r.semantic_score = none := by
  rw [search_fts_eq] at hr
  obtain ⟨r0, hr0, ns, hns, rfl⟩ := mem_zipWith hr
  refine ⟨ns, rfl, (softmax_mem_range _ ns hns).1, (softmax_mem_range _ ns hns).2, rfl, ?_⟩
  obtain ⟨dr, _, rfl⟩ := List.mem_map.mp hr0
  rfl

theorem search_fts_map_path (bm25 : Bm25) (s : EngineState) (q : String)
    (pf : Option (List String)) :
    (search_fts bm25 s q pf).map SearchResult.path =
      ((List.insertionSort byBm25Asc (ftsRows bm25 s q pf)).map ftsRowMapper).map
        SearchResult.path := by
  rw [search_fts_eq, zipWith_update_map_path _ _ (search_fts_len bm25 s q pf)]

theorem ftsRows_paths_nodup (bm25 : Bm25) (s : EngineState) (q : String)
    (pf : Option (List String)) (h : (s.documents_fts.map Prod.fst).Nodup) :
    ((ftsRows bm25 s q pf).map (fun dr => dr.1.path)).Nodup := by
  rw [ftsRows, List.map_filterMap]
  apply nodup_filterMap_key _ _ Prod.fst _ h
  intro row p hrow
  rw [Option.map_eq_some'] at hrow
  obtain ⟨dr, hdr, rfl⟩ := hrow
  cases hbm : bm25 q row.2 with
  | none => rw [hbm] at hdr; simp at hdr
  | some score =>
    rw [hbm] at hdr
    simp only at hdr
    cases hfd : findDoc s.documents row.1 with
    | none => rw [hfd] at hdr; simp at hdr
    | some d =>
      rw [hfd] at hdr
      simp only at hdr
      by_cases hok : pathFilterOk pf d.path = true
      · rw [if_pos hok] at hdr
        have hdd : (d, score) = dr := by simpa using hdr
        subst hdd
        rw [findDoc] at hfd
        simpa using List.find?_some hfd
      · rw [if_neg hok] at hdr
        simp at hdr

theorem search_fts_paths_nodup (bm25 : Bm25) (s : EngineState) (q : String)
    (pf : Option (List String)) (h : (s.documents_fts.map Prod.fst).Nodup) :
    ((search_fts bm25 s q pf).map SearchResult.path).Nodup := by
  rw [search_fts_map_path, List.map_map]
  have hcomp : (SearchResult.path ∘ ftsRowMapper) = fun dr : Document × ℝ => dr.1.path := rfl
  rw [hcomp]
  have hperm : ((List.insertionSort byBm25Asc (ftsRows bm25 s q pf)).map
      (fun dr : Document × ℝ => dr.1.path)).Perm
      ((ftsRows bm25 s q pf).map (fun dr => dr.1.path)) :=
    (List.perm_insertionSort byBm25Asc _).map _
  exact hperm.nodup_iff.mpr (ftsRows_paths_nodup bm25 s q pf h)

/-- Every search_by_embedding result carries a semantic score equal to
its final score and no fts score. -/
theorem search_by_embedding_mem (s : EngineState) (qe : List ℝ)
    (pf : Option (List String)) (r : SearchResult)
    (hr : r ∈ search_by_embedding s qe pf) :
    r.fts_score = none ∧ r.semantic_score = some r.final_score := by
  rw [search_by_embedding] at hr
  have hr2 : r ∈ embeddingResults s qe pf :=
    ((List.perm_insertionSort bySemDesc _).mem_iff).mp hr
  rw [embeddingResults] at hr2
  obtain ⟨dv, _, hsome⟩ := List.mem_filterMap.mp hr2
  by_cases hc : cosine_similarity qe dv.2 < 1e-3
  · rw [if_pos hc] at hsome
    simp at hsome
  · rw [if_neg hc] at hsome
    have hrr := (Option.some.injEq _ _).mp hsome
    rw [← hrr]
    exact ⟨rfl, rfl⟩

theorem embeddingRows_paths_nodup (s : EngineState) (pf : Option (List String))
    (h : (s.documents.map Document.path).Nodup) :
    ((embeddingRows s pf).map (fun dv => dv.1.path)).Nodup := by
  rw [embeddingRows, List.map_filterMap]
  apply nodup_filterMap_key _ _ Document.path _ h
  intro d p hd
  rw [Option.map_eq_some'] at hd
  obtain ⟨dv, hdv, rfl⟩ := hd
  cases hle : lookupEmbedding s.document_embeddings d.path with
  | none => rw [hle] at hdv; simp at hdv
  | some v =>
    rw [hle] at hdv
    simp only at hdv
    by_cases hok : pathFilterOk pf d.path = true
    · rw [if_pos hok] at hdv
      have hdd : (d, v) = dv := by simpa using hdv
      subst hdd
      rfl
    · rw [if_neg hok] at hdv
      simp at hdv

theorem search_by_embedding_paths_nodup (s : EngineState) (qe : List ℝ)
    (pf : Option (List String)) (h : (s.documents.map Document.path).Nodup) :
    ((search_by_embedding s qe pf).map SearchResult.path).Nodup := by
  have h1 : ((embeddingResults s qe pf).map SearchResult.path).Nodup := by
    rw [embeddingResults, List.map_filterMap]
    apply nodup_filterMap_key _ _ (fun dv : Document × List ℝ => dv.1.path) _
      (embeddingRows_paths_nodup s pf h)
    intro dv p hdv
    rw [Option.map_eq_some'] at hdv
    obtain ⟨r, hr, rfl⟩ := hdv
    by_cases hc : cosine_similarity qe dv.2 < 1e-3
    · rw [if_pos hc] at hr
      simp at hr
    · rw [if_neg hc] at hr
      have hrr := (Option.some.injEq _ _).mp hr
      rw [← hrr]
  rw [search_by_embedding]
  have hperm : ((List.insertionSort bySemDesc (embeddingResults s qe pf)).map
      SearchResult.path).Perm ((embeddingResults s qe pf).map SearchResult.path) :=
    (List.perm_insertionSort bySemDesc _).map _
  exact hperm.nodup_iff.mpr h1

/-- The entry that the FTS loop of search_hybrid inserts for a result:
the max-normalized score with the near-zero guard. -/
noncomputable def normEntry (mx : ℝ) (r : SearchResult) : String × FuseEntry :=
  (r.path, ⟨r, some (r.fts_score.getD 0 / (if |mx| < 1e-5 then 1 else mx)), none⟩)

theorem ftsStep_not_mem (mx : ℝ) (m : List (String × FuseEntry)) (r : SearchResult)
    (h : ∀ kv ∈ m, kv.1 ≠ r.path) :
    ftsStep mx m r = m ++ [normEntry mx r] := by
  rw [ftsStep]
  rw [if_neg ?hneg]
  case hneg =>
    rw [List.any_eq_true]
    rintro ⟨kv, hkv, he⟩
    exact h kv hkv (of_decide_eq_true he)
  rfl

theorem ftsFold_eq_append (mx : ℝ) (F : List SearchResult)
    (acc : List (String × FuseEntry))
    (hnd : (F.map SearchResult.path).Nodup)
    (hdisj : ∀ r ∈ F, ∀ kv ∈ acc, kv.1 ≠ r.path) :
    F.foldl (ftsStep mx) acc = acc ++ F.map (normEntry mx) := by
  induction F generalizing acc with
  | nil => simp
  | cons r rest ih =>
    rw [List.map_cons, List.nodup_cons] at hnd
    rw [List.foldl_cons,
      ftsStep_not_mem mx acc r (fun kv hkv => hdisj r (List.mem_cons_self r rest) kv hkv)]
    rw [ih (acc ++ [normEntry mx r]) hnd.2 ?hdisj2]
    · simp
    case hdisj2 =>
      intro r2 hr2 kv hkv
      rcases List.mem_append.mp hkv with h1 | h2
      · exact hdisj r2 (List.mem_cons_of_mem r hr2) kv h1
      · rw [List.mem_singleton.mp h2]
        intro he
        have he2 : r.path = r2.path := he
        exact hnd.1 (he2 ▸ List.mem_map_of_mem SearchResult.path hr2)

theorem semStep_not_mem (m : List (String × FuseEntry)) (r : SearchResult)
    (h : ∀ kv ∈ m, kv.1 ≠ r.path) :
    semStep m r = m ++ [(r.path, ⟨r, none, some (r.semantic_score.getD 0)⟩)] := by
  rw [semStep]
  rw [if_neg ?hneg]
  case hneg =>
    rw [List.any_eq_true]
    rintro ⟨kv, hkv, he⟩
    exact h kv hkv (of_decide_eq_true he)

theorem semStep_mem_src (m : List (String × FuseEntry)) (r : SearchResult)
    (kv : String × FuseEntry) (hkv : kv ∈ semStep m r) :
    (∃ e0 : FuseEntry, (kv.1, e0) ∈ m ∧ kv.2.base = e0.base ∧ kv.2.fts = e0.fts) ∨
    (kv = (r.path, ⟨r, none, some (r.semantic_score.getD 0)⟩)) := by
  rw [semStep] at hkv
  by_cases hc : (m.any (fun x => x.1 = r.path)) = true
  · rw [if_pos hc] at hkv
    obtain ⟨kv0, hkv0, rfl⟩ := List.mem_map.mp hkv
    by_cases he : kv0.1 = r.path
    · rw [if_pos he]
      left
      exact ⟨kv0.2, by simpa using hkv0, rfl, rfl⟩
    · rw [if_neg he]
      left
      exact ⟨kv0.2, by simpa using hkv0, rfl, rfl⟩
  · rw [if_neg hc] at hkv
    rcases List.mem_append.mp hkv with h1 | h2
    · left
      exact ⟨kv.2, by simpa using h1, rfl, rfl⟩
    · right
      simpa using h2

theorem semFold_mem_src (S : List SearchResult) (m : List (String × FuseEntry))
    (kv : String × FuseEntry) (hkv : kv ∈ S.foldl semStep m) :
    (∃ e0 : FuseEntry, (kv.1, e0) ∈ m ∧ kv.2.base = e0.base ∧ kv.2.fts = e0.fts) ∨
    (∃ r0 ∈ S, kv.1 = r0.path ∧ kv.2.base = r0 ∧ kv.2.fts = none) := by
  induction S generalizing m with
  | nil =>
    left
    exact ⟨kv.2, by simpa using hkv, rfl, rfl⟩
  | cons r rest ih =>
    rw [List.foldl_cons] at hkv
    rcases ih (semStep m r) hkv with ⟨e0, he0, hb, hf⟩ | ⟨r0, hr0, h1, h2, h3⟩
    · rcases semStep_mem_src m r (kv.1, e0) he0 with ⟨e1, he1, hb1, hf1⟩ | heq
      · left
        exact ⟨e1, he1, hb.trans hb1, hf.trans hf1⟩
      · right
        have h1 : kv.1 = r.path := congrArg Prod.fst heq
        have h2 : e0 = ⟨r, none, some (r.semantic_score.getD 0)⟩ := congrArg Prod.snd heq
        exact ⟨r, List.mem_cons_self r rest, h1, by rw [hb, h2], by rw [hf, h2]⟩
    · right
      exact ⟨r0, List.mem_cons_of_mem r hr0, h1, h2, h3⟩

theorem semStep_mem_sem (m : List (String × FuseEntry)) (r : SearchResult)
    (kv : String × FuseEntry) (hkv : kv ∈ semStep m r) :
    (∃ e0 : FuseEntry, (kv.1, e0) ∈ m ∧ kv.2.sem = e0.sem) ∨
    (kv.1 = r.path ∧ kv.2.sem = some (r.semantic_score.getD 0)) := by
  rw [semStep] at hkv
  by_cases hc : (m.any (fun x => x.1 = r.path)) = true
  · rw [if_pos hc] at hkv
    obtain ⟨kv0, hkv0, rfl⟩ := List.mem_map.mp hkv
    by_cases he : kv0.1 = r.path
    · rw [if_pos he]
      right
      exact ⟨he, rfl⟩
    · rw [if_neg he]
      left
      exact ⟨kv0.2, by simpa using hkv0, rfl⟩
  · rw [if_neg hc] at hkv
    rcases List.mem_append.mp hkv with h1 | h2
    · left
      exact ⟨kv.2, by simpa using h1, rfl⟩
    · right
      have heq : kv = (r.path, ⟨r, none, some (r.semantic_score.getD 0)⟩) := by simpa using h2
      rw [heq]
      exact ⟨rfl, rfl⟩

theorem semFold_mem_sem (S : List SearchResult) (m : List (String × FuseEntry))
    (kv : String × FuseEntry) (hkv : kv ∈ S.foldl semStep m) :
    (∃ e0 : FuseEntry, (kv.1, e0) ∈ m ∧ kv.2.sem = e0.sem) ∨
    (∃ r0 ∈ S, kv.1 = r0.path ∧ kv.2.sem = some (r0.semantic_score.getD 0)) := by
  induction S generalizing m with
  | nil =>
    left
    exact ⟨kv.2, by simpa using hkv, rfl⟩
  | cons r rest ih =>
    rw [List.foldl_cons] at hkv
    rcases ih (semStep m r) hkv with ⟨e0, he0, hs⟩ | ⟨r0, hr0, h1, h2⟩
    · rcases semStep_mem_sem m r (kv.1, e0) he0 with ⟨e1, he1, hs1⟩ | ⟨h1, h2⟩
      · left
        exact ⟨e1, he1, hs.trans hs1⟩
      · right
        exact ⟨r, List.mem_cons_self r rest, h1, hs.trans h2⟩
    · right
      exact ⟨r0, List.mem_cons_of_mem r hr0, h1, h2⟩

theorem semStep_preserve (m : List (String × FuseEntry)) (r : SearchResult)
    (kv : String × FuseEntry) (hkv : kv ∈ m) (hne : kv.1 ≠ r.path) :
    kv ∈ semStep m r := by
  rw [semStep]
  by_cases hc : (m.any (fun x => x.1 = r.path)) = true
  · rw [if_pos hc]
    exact List.mem_map.mpr ⟨kv, hkv, by rw [if_neg hne]⟩
  · rw [if_neg hc]
    exact List.mem_append_left _ hkv

theorem semFold_preserve (S : List SearchResult) (m : List (String × FuseEntry))
    (kv : String × FuseEntry) (hkv : kv ∈ m)
    (hp : kv.1 ∉ S.map SearchResult.path) : kv ∈ S.foldl semStep m := by
  induction S generalizing m with
  | nil => simpa using hkv
  | cons r rest ih =>
    rw [List.foldl_cons]
    rw [List.map_cons] at hp
    apply ih (semStep m r) ?_ (fun hmem => hp (List.mem_cons_of_mem _ hmem))
    apply semStep_preserve m r kv hkv
    intro he
    exact hp (he ▸ List.mem_cons_self _ _)

theorem semStep_keys (m : List (String × FuseEntry)) (r : SearchResult) :
    (semStep m r).map Prod.fst = m.map Prod.fst ∨
    (semStep m r).map Prod.fst = m.map Prod.fst ++ [r.path] := by
  rw [semStep]
  by_cases hc : (m.any (fun x => x.1 = r.path)) = true
  · rw [if_pos hc]
    left
    rw [List.map_map]
    apply List.map_congr_left
    intro kv _
    simp only [Function.comp]
    by_cases he : kv.1 = r.path
    · rw [if_pos he]
    · rw [if_neg he]
  · rw [if_neg hc]
    right
    simp

theorem semFold_insert (S : List SearchResult) (m : List (String × FuseEntry))
    (r0 : SearchResult) (hr0 : r0 ∈ S)
    (hnd : (S.map SearchResult.path).Nodup)
    (hkeys : r0.path ∉ m.map Prod.fst) :
    (r0.path, (⟨r0, none, some (r0.semantic_score.getD 0)⟩ : FuseEntry)) ∈
      S.foldl semStep m := by
  induction S generalizing m with
  | nil => simp at hr0
  | cons r rest ih =>
    rw [List.foldl_cons]
    rw [List.map_cons, List.nodup_cons] at hnd
    rcases List.mem_cons.mp hr0 with heq | hmem
    · subst heq
      rw [semStep_not_mem m r0
        (fun kv hkv he => hkeys (he ▸ List.mem_map_of_mem Prod.fst hkv))]
      apply semFold_preserve
      · exact List.mem_append_right _ (List.mem_singleton.mpr rfl)
      · exact hnd.1
    · have hne : r0.path ≠ r.path := by
        intro he
        exact hnd.1 (he ▸ List.mem_map_of_mem _ hmem)
      apply ih _ hmem hnd.2
      rcases semStep_keys m r with h | h
      · rw [h]
        exact hkeys
      · rw [h]
        intro hmem2
        rcases List.mem_append.mp hmem2 with h1 | h2
        · exact hkeys h1
        · exact hne (List.mem_singleton.mp h2)

theorem semStep_key_base (m : List (String × FuseEntry)) (r : SearchResult)
    (hm : ∀ kv ∈ m, kv.1 = kv.2.base.path) :
    ∀ kv ∈ semStep m r, kv.1 = kv.2.base.path := by
  intro kv hkv
  rw [semStep] at hkv
  by_cases hc : (m.any (fun x => x.1 = r.path)) = true
  · rw [if_pos hc] at hkv
    obtain ⟨kv0, hkv0, rfl⟩ := List.mem_map.mp hkv
    by_cases he : kv0.1 = r.path
    · rw [if_pos he]
      exact hm kv0 hkv0
    · rw [if_neg he]
      exact hm kv0 hkv0
  · rw [if_neg hc] at hkv
    rcases List.mem_append.mp hkv with h1 | h2
    · exact hm kv h1
    · rw [List.mem_singleton.mp h2]

theorem semFold_key_base (S : List SearchResult) (m : List (String × FuseEntry))
    (hm : ∀ kv ∈ m, kv.1 = kv.2.base.path) :
    ∀ kv ∈ S.foldl semStep m, kv.1 = kv.2.base.path := by
  induction S generalizing m with
  | nil => exact hm
  | cons r rest ih =>
    intro kv hkv
    rw [List.foldl_cons] at hkv
    exact ih (semStep m r) (semStep_key_base m r hm) kv hkv

/-- C1: for every hybrid search (with an embedder configured), each
returned result has final score equal to 0.6 times its max-normalized lexical
score plus 0.4 times its semantic cosine score, a missing component
contributing 0 through unwrap_or(0.0); every populated fts_score field
is the max-normalized score of a lexical candidate with the same path
and lies in [0, 1]; every populated semantic_score field is the cosine
score of a semantic candidate with the same path; and a document found
by only one of the two retrievals still appears in the output with the
field of the other component none, not zero-filled. -/
theorem C1_hybrid_fusion (bm25 : Bm25)
    (enum : List (String × FuseEntry) → List (String × FuseEntry))
    (eng : Engine) (m : Embedder) (q : String) (pf : Option (List String))
    (hemb : eng.embedder = some m)
    (hdoc : (eng.state.documents.map Document.path).Nodup)
    (hfts : (eng.state.documents_fts.map Prod.fst).Nodup)
    (henum : ∀ l : List (String × FuseEntry), (enum l).Perm l) :
    (∀ r ∈ search_hybrid bm25 enum eng q pf,
      r.final_score = r.fts_score.getD 0 * 0.6 + r.semantic_score.getD 0 * 0.4) ∧
    (∀ r ∈ search_hybrid bm25 enum eng q pf, ∀ x, r.fts_score = some x →
      (0 ≤ x ∧ x ≤ 1) ∧
      ∃ r0 ∈ search_fts bm25 eng.state q pf, r0.path = r.path ∧
        x = r0.fts_score.getD 0 /
          (if |maxOrDefault ((search_fts bm25 eng.state q pf).map
              (fun t => t.fts_score.getD 0)) 1| < 1e-5 then 1
           else maxOrDefault ((search_fts bm25 eng.state q pf).map
              (fun t => t.fts_score.getD 0)) 1)) ∧
    (∀ r ∈ search_hybrid bm25 enum eng q pf, ∀ y, r.semantic_score = some y →
      ∃ r0 ∈ search_by_embedding eng.state (embed_text m q) pf, r0.path = r.path ∧
        y = r0.semantic_score.getD 0) ∧
    (∀ p, p ∈ (search_fts bm25 eng.state q pf).map SearchResult.path →
      p ∉ (search_by_embedding eng.state (embed_text m q) pf).map SearchResult.path →
      ∃ r ∈ search_hybrid bm25 enum eng q pf, r.path = p ∧
        r.fts_score.isSome = true ∧ r.semantic_score = none) ∧
    (∀ p, p ∉ (search_fts bm25 eng.state q pf).map SearchResult.path →
      p ∈ (search_by_embedding eng.state (embed_text m q) pf).map SearchResult.path →
      ∃ r ∈ search_hybrid bm25 enum eng q pf, r.path = p ∧
        r.fts_score = none ∧ r.semantic_score.isSome = true) := by
  have hFnd : ((search_fts bm25 eng.state q pf).map SearchResult.path).Nodup :=
    search_fts_paths_nodup bm25 eng.state q pf hfts
  have hSnd : ((search_by_embedding eng.state (embed_text m q) pf).map
      SearchResult.path).Nodup :=
    search_by_embedding_paths_nodup eng.state (embed_text m q) pf hdoc
  set F := search_fts bm25 eng.state q pf with hF
  set S := search_by_embedding eng.state (embed_text m q) pf with hS
  set mx := maxOrDefault (F.map (fun t => t.fts_score.getD 0)) 1 with hmx
  set m0 := F.foldl (ftsStep mx) [] with hm0def
  set combined := S.foldl semStep m0 with hcomb
  have hm0eq : m0 = F.map (normEntry mx) := by
    rw [hm0def, ftsFold_eq_append mx F [] hFnd (by intro r _ kv hkv; simp at hkv)]
    rfl
  have hout : search_hybrid bm25 enum eng q pf =
      List.insertionSort byFinalDesc ((enum combined).map fuseEntry) := by
    rw [search_hybrid, hemb]
  have hmem : ∀ r, r ∈ search_hybrid bm25 enum eng q pf ↔
      ∃ kv ∈ combined, r = fuseEntry kv := by
    intro r
    rw [hout, (List.perm_insertionSort byFinalDesc _).mem_iff]
    constructor
    · intro hr
      obtain ⟨kv, hkv, rfl⟩ := List.mem_map.mp hr
      exact ⟨kv, (henum combined).mem_iff.mp hkv, rfl⟩
    · rintro ⟨kv, hkv, rfl⟩
      exact List.mem_map.mpr ⟨kv, (henum combined).mem_iff.mpr hkv, rfl⟩
  refine ⟨?_, ?_, ?_, ?_, ?_⟩
  · intro r hr
    obtain ⟨kv, _, rfl⟩ := (hmem r).mp hr
    rfl
  · intro r hr x hx
    obtain ⟨kv, hkv, rfl⟩ := (hmem r).mp hr
    have hx2 : kv.2.fts = some x := hx
    rcases semFold_mem_src S m0 kv hkv with ⟨e0, he0, hb, hf⟩ | ⟨r0, hr0, h1, h2, h3⟩
    · rw [hm0eq] at he0
      obtain ⟨r0, hr0F, heq⟩ := List.mem_map.mp he0
      have he0v : e0 = ⟨r0, some (r0.fts_score.getD 0 /
          (if |mx| < 1e-5 then 1 else mx)), none⟩ := (congrArg Prod.snd heq).symm
      have hxval : x = r0.fts_score.getD 0 / (if |mx| < 1e-5 then 1 else mx) := by
        have h4 : kv.2.fts = some (r0.fts_score.getD 0 /
            (if |mx| < 1e-5 then 1 else mx)) := by rw [hf, he0v]
        rw [hx2] at h4
        exact (Option.some.injEq _ _).mp h4
      have hpath : r0.path = (fuseEntry kv).path := by
        have h5 : (fuseEntry kv).path = kv.2.base.path := rfl
        rw [h5, hb, he0v]
      refine ⟨?_, r0, hr0F, hpath, hxval⟩
      obtain ⟨v, hv, hv0, hv1, _, _⟩ := search_fts_mem bm25 eng.state q pf r0 hr0F
      have hmem2 : r0.fts_score.getD 0 ∈ F.map (fun t => t.fts_score.getD 0) :=
        List.mem_map_of_mem _ hr0F
      have hb2 := normalized_score_bound (F.map fun t => t.fts_score.getD 0) _ hmem2
        (by rw [hv]; simpa using hv0)
      rw [hxval]
      exact hb2
    · rw [h3] at hx2
      exact absurd hx2 (by simp)
  · intro r hr y hy
    obtain ⟨kv, hkv, rfl⟩ := (hmem r).mp hr
    have hy2 : kv.2.sem = some y := hy
    rcases semFold_mem_sem S m0 kv hkv with ⟨e0, he0, hs⟩ | ⟨r0, hr0, h1, h2⟩
    · rw [hm0eq] at he0
      obtain ⟨r0, hr0F, heq⟩ := List.mem_map.mp he0
      have hnone : e0.sem = none := by
        have h6 : (⟨r0, some (r0.fts_score.getD 0 /
            (if |mx| < 1e-5 then 1 else mx)), none⟩ : FuseEntry) = e0 :=
          congrArg Prod.snd heq
        rw [← h6]
      rw [hs, hnone] at hy2
      exact absurd hy2 (by simp)
    · have hkb : kv.1 = kv.2.base.path := by
        apply semFold_key_base S m0 ?_ kv hkv
        intro kv2 hkv2
        rw [hm0eq] at hkv2
        obtain ⟨r2, _, heq2⟩ := List.mem_map.mp hkv2
        rw [← heq2]
        rfl
      refine ⟨r0, hr0, ?_, ?_⟩
      · have h5 : (fuseEntry kv).path = kv.2.base.path := rfl
        rw [h5, ← hkb, h1]
      · rw [h2] at hy2
        exact ((Option.some.injEq _ _).mp hy2).symm
  · intro p hpF hpS
    obtain ⟨r0, hr0F, rfl⟩ := List.mem_map.mp hpF
    have hin0 : normEntry mx r0 ∈ m0 := by
      rw [hm0eq]
      exact List.mem_map_of_mem _ hr0F
    have hin : normEntry mx r0 ∈ combined :=
      semFold_preserve S m0 _ hin0 hpS
    exact ⟨fuseEntry (normEntry mx r0), (hmem _).mpr ⟨_, hin, rfl⟩, rfl, rfl, rfl⟩
  · intro p hpF hpS
    obtain ⟨r0, hr0S, rfl⟩ := List.mem_map.mp hpS
    have hkeys : r0.path ∉ m0.map Prod.fst := by
      rw [hm0eq, List.map_map]
      have hcomp : (Prod.fst ∘ normEntry mx) = SearchResult.path := rfl
      rw [hcomp]
      exact hpF
    have hin : (r0.path, (⟨r0, none, some (r0.semantic_score.getD 0)⟩ : FuseEntry)) ∈
        combined := semFold_insert S m0 r0 hr0S hSnd hkeys
    exact ⟨fuseEntry (r0.path, ⟨r0, none, some (r0.semantic_score.getD 0)⟩),
      (hmem _).mpr ⟨_, hin, rfl⟩, rfl, rfl, rfl⟩

/-! ### Concrete example store used by witnesses and counterexamples -/

noncomputable def exDocA : Document := ⟨"a", "ca", none, 0, 0⟩

noncomputable def exDocB : Document := ⟨"b", "cb", none, 0, 0⟩

noncomputable def exState : EngineState :=
  ⟨[exDocA, exDocB], [("a", [1, 0]), ("b", [1, 0])], []⟩

noncomputable def exEmbedder : Embedder := fun _ => [1, 0]

noncomputable def exEng : Engine := ⟨exState, some exEmbedder⟩

def exBm25 : Bm25 := fun _ _ => none

/-- C1 witness: the theorem applied to the concrete two-document store
with an embedder and the identity enumeration. -/
theorem C1_hybrid_fusion_witness :
    (∀ r ∈ search_hybrid exBm25 id exEng "q" none,
      r.final_score = r.fts_score.getD 0 * 0.6 + r.semantic_score.getD 0 * 0.4) ∧
    (∀ r ∈ search_hybrid exBm25 id exEng "q" none, ∀ x, r.fts_score = some x →
      (0 ≤ x ∧ x ≤ 1) ∧
      ∃ r0 ∈ search_fts exBm25 exEng.state "q" none, r0.path = r.path ∧
        x = r0.fts_score.getD 0 /
          (if |maxOrDefault ((search_fts exBm25 exEng.state "q" none).map
              (fun t => t.fts_score.getD 0)) 1| < 1e-5 then 1
           else maxOrDefault ((search_fts exBm25 exEng.state "q" none).map
              (fun t => t.fts_score.getD 0)) 1)) ∧
    (∀ r ∈ search_hybrid exBm25 id exEng "q" none, ∀ y, r.semantic_score = some y →
      ∃ r0 ∈ search_by_embedding exEng.state (embed_text exEmbedder "q") none,
        r0.path = r.path ∧ y = r0.semantic_score.getD 0) ∧
    (∀ p, p ∈ (search_fts exBm25 exEng.state "q" none).map SearchResult.path →
      p ∉ (search_by_embedding exEng.state (embed_text exEmbedder "q") none).map
        SearchResult.path →
      ∃ r ∈ search_hybrid exBm25 id exEng "q" none, r.path = p ∧
        r.fts_score.isSome = true ∧ r.semantic_score = none) ∧
    (∀ p, p ∉ (search_fts exBm25 exEng.state "q" none).map SearchResult.path →
      p ∈ (search_by_embedding exEng.state (embed_text exEmbedder "q") none).map
        SearchResult.path →
      ∃ r ∈ search_hybrid exBm25 id exEng "q" none, r.path = p ∧
        r.fts_score = none ∧ r.semantic_score.isSome = true) := by
  apply C1_hybrid_fusion exBm25 id exEng exEmbedder "q" none rfl
  · simp [exState, exDocA, exDocB, exEng]
  · simp [exState, exEng]
  · exact fun l => List.Perm.refl l

/-! ### C7: ordering of results -/

theorem softmax_pairwise_ge (l : List ℝ) (h : l.Pairwise (fun a b => b ≤ a)) :
    (softmax l).Pairwise (fun a b : ℝ => b ≤ a) := by
  cases l with
  | nil => simp [softmax]
  | cons s0 rest =>
    rw [softmax_eq_map, List.pairwise_map]
    apply h.imp
    intro a b hab
    have hSpos := exp_list_sum_pos s0 rest (rest.foldl max s0)
    exact (div_le_div_iff_of_pos_right hSpos).mpr (Real.exp_le_exp.mpr (by linarith))

theorem search_fts_sorted (bm25 : Bm25) (s : EngineState) (q : String)
    (pf : Option (List String)) :
    (search_fts bm25 s q pf).Pairwise byFinalDesc := by
  rw [search_fts_eq]
  have hlen := search_fts_len bm25 s q pf
  have hmapfinal := zipWith_update_map_final _ _ hlen
  have hsorted : (List.insertionSort byBm25Asc (ftsRows bm25 s q pf)).Pairwise byBm25Asc :=
    List.sorted_insertionSort byBm25Asc _
  have hscores : (((List.insertionSort byBm25Asc (ftsRows bm25 s q pf)).map ftsRowMapper).map
      (fun r => r.fts_score.getD 0)).Pairwise (fun a b : ℝ => b ≤ a) := by
    rw [List.map_map, List.pairwise_map]
    apply hsorted.imp
    intro a b hab
    show -b.2 ≤ -a.2
    exact neg_le_neg hab
  have hns := softmax_pairwise_ge _ hscores
  have hfinal : ((List.zipWith (fun r ns => { r with fts_score := some ns, final_score := ns })
      ((List.insertionSort byBm25Asc (ftsRows bm25 s q pf)).map ftsRowMapper)
      (softmax (((List.insertionSort byBm25Asc (ftsRows bm25 s q pf)).map ftsRowMapper).map
        (fun r => r.fts_score.getD 0)))).map SearchResult.final_score).Pairwise
      (fun a b : ℝ => b ≤ a) := by
    rw [hmapfinal]
    exact hns
  have h4 := List.pairwise_map.mp hfinal
  exact h4.imp (fun h => h)

theorem embeddingResults_final (s : EngineState) (qe : List ℝ) (pf : Option (List String))
    (r : SearchResult) (hr : r ∈ embeddingResults s qe pf) :
    r.final_score = r.semantic_score.getD 0 := by
  rw [embeddingResults] at hr
  obtain ⟨dv, _, hsome⟩ := List.mem_filterMap.mp hr
  by_cases hc : cosine_similarity qe dv.2 < 1e-3
  · rw [if_pos hc] at hsome
    simp at hsome
  · rw [if_neg hc] at hsome
    have h2 := (Option.some.injEq _ _).mp hsome
    rw [← h2]
    rfl

theorem search_by_embedding_sorted (s : EngineState) (qe : List ℝ)
    (pf : Option (List String)) :
    (search_by_embedding s qe pf).Pairwise byFinalDesc := by
  rw [search_by_embedding]
  have hsorted := List.sorted_insertionSort bySemDesc (embeddingResults s qe pf)
  apply List.Pairwise.imp_of_mem ?_ hsorted
  intro a b ha hb hr
  have ha2 := embeddingResults_final s qe pf a
    ((List.perm_insertionSort bySemDesc _).mem_iff.mp ha)
  have hb2 := embeddingResults_final s qe pf b
    ((List.perm_insertionSort bySemDesc _).mem_iff.mp hb)
  show b.final_score ≤ a.final_score
  rw [ha2, hb2]
  exact hr

theorem search_fulltext_only_sorted (bm25 : Bm25) (s : EngineState) (q : String)
    (pf : Option (List String)) :
    (search_fulltext_only bm25 s q pf).Pairwise byFinalDesc := by
  rw [search_fulltext_only, List.pairwise_map]
  apply (search_fts_sorted bm25 s q pf).imp
  intro a b hab
  exact hab

/-- C7 (amended): every successful search, in every mode and for every
hash-map enumeration in hybrid mode, returns its results in descending
final_score order. -/
theorem C7_amended_descending (bm25 : Bm25)
    (enum : List (String × FuseEntry) → List (String × FuseEntry))
    (eng : Engine) (q : String) (ty : SearchType) (top : Option Int)
    (pf : Option (List String)) :
    ∀ out, search bm25 enum eng q ty top pf = Except.ok out →
      out.Pairwise byFinalDesc := by
  intro out hout
  rw [search] at hout
  cases hd : search_dispatch bm25 enum eng q ty pf with
  | error e =>
    rw [hd] at hout
    simp at hout
  | ok res =>
    rw [hd] at hout
    simp only at hout
    have hres : res.Pairwise byFinalDesc := by
      cases ty with
      | FullText =>
        rw [search_dispatch] at hd
        have h2 := (Except.ok.injEq _ _).mp hd
        rw [← h2]
        exact search_fulltext_only_sorted bm25 eng.state q pf
      | Semantic =>
        rw [search_dispatch] at hd
        by_cases he : eng.embedder.isNone = true
        · rw [if_pos he] at hd
          simp at hd
        · rw [if_neg he] at hd
          rw [search_semantic_only] at hd
          cases hm : eng.embedder with
          | none =>
            rw [hm] at hd
            simp at hd
          | some m =>
            rw [hm] at hd
            simp only at hd
            have h2 := (Except.ok.injEq _ _).mp hd
            rw [← h2, List.pairwise_map]
            apply (search_by_embedding_sorted eng.state (embed_text m q) pf).imp
            intro a b hab
            exact hab
      | Hybrid =>
        rw [search_dispatch] at hd
        have h2 := (Except.ok.injEq _ _).mp hd
        rw [← h2]
        cases hm : eng.embedder with
        | none =>
          rw [search_hybrid, hm]
          exact search_fulltext_only_sorted bm25 eng.state q pf
        | some m =>
          rw [search_hybrid, hm]
          exact List.sorted_insertionSort byFinalDesc _
    have h3 : res.take (min (usizeOfI8 (top.getD 10)) res.length) = out :=
      (Except.ok.injEq _ _).mp hout
    rw [← h3]
    exact List.Pairwise.sublist (List.take_sublist _ _) hres

/-- C7 (amended) witness: a concrete FullText search on the empty store
succeeds and its output is sorted. -/
theorem C7_amended_descending_witness :
    (([] : List SearchResult).take (usizeOfI8 ((some (3 : Int)).getD 10))).Pairwise
      byFinalDesc := by
  apply C7_amended_descending (fun _ _ => none) id ⟨⟨[], [], []⟩, none⟩ "q"
    SearchType.FullText (some 3) none
  have hd : search_dispatch (fun _ _ => none) id ⟨⟨[], [], []⟩, none⟩ "q"
      SearchType.FullText none = Except.ok [] := by
    rw [search_dispatch]
    simp [search_fulltext_only, search_fts, ftsRows]
  rw [search, hd]
  rfl

noncomputable def exResA : SearchResult := ⟨"a", none, 0, 0, none, some 1, 1⟩

noncomputable def exResB : SearchResult := ⟨"b", none, 0, 0, none, some 1, 1⟩

noncomputable def exEntryA : String × FuseEntry := ("a", ⟨exResA, none, some 1⟩)

noncomputable def exEntryB : String × FuseEntry := ("b", ⟨exResB, none, some 1⟩)

noncomputable def exOutA : SearchResult := ⟨"a", none, 0, 0, none, some 1, 0.4⟩

noncomputable def exOutB : SearchResult := ⟨"b", none, 0, 0, none, some 1, 0.4⟩

theorem ex_l2norm_10 : l2norm [(1 : ℝ), 0] = 1 := by
  have h : (([(1 : ℝ), 0]).map (fun x => x * x)).sum = 1 := by norm_num
  rw [l2norm, h, Real.sqrt_one]

theorem ex_embed : embed_text exEmbedder "q" = [(1 : ℝ), 0] := by
  show normalize_l2 [(1 : ℝ), 0] = [(1 : ℝ), 0]
  rw [normalize_l2, if_neg (by rw [ex_l2norm_10]; norm_num), ex_l2norm_10]
  norm_num

theorem ex_cos : cosine_similarity [(1 : ℝ), 0] [(1 : ℝ), 0] = 1 := by
  rw [cosine_similarity, if_neg (by simp)]
  norm_num

theorem ex_embeddingRows :
    embeddingRows exState none = [(exDocA, [(1 : ℝ), 0]), (exDocB, [(1 : ℝ), 0])] := by
  rw [embeddingRows, show exState.documents = [exDocA, exDocB] from rfl]
  rw [List.filterMap_cons, List.filterMap_cons, List.filterMap_nil]
  have hla : lookupEmbedding exState.document_embeddings exDocA.path = some [(1 : ℝ), 0] := by
    simp [lookupEmbedding, exState, exDocA]
  have hlb : lookupEmbedding exState.document_embeddings exDocB.path = some [(1 : ℝ), 0] := by
    simp [lookupEmbedding, exState, exDocB]
  rw [hla, hlb]
  rfl

theorem ex_embeddingResults :
    embeddingResults exState [(1 : ℝ), 0] none = [exResA, exResB] := by
  rw [embeddingResults, ex_embeddingRows]
  rw [List.filterMap_cons, List.filterMap_cons, List.filterMap_nil]
  simp only
  rw [ex_cos]
  norm_num [exDocA, exDocB, exResA, exResB]

theorem ex_sbe : search_by_embedding exState [(1 : ℝ), 0] none = [exResA, exResB] := by
  rw [search_by_embedding, ex_embeddingResults]
  simp [bySemDesc, exResA, exResB]

theorem ex_fts : search_fts exBm25 exState "q" none = [] :=
  search_fts_no_match exBm25 exState "q" none (fun _ => rfl)

theorem ex_semfold :
    [exResA, exResB].foldl semStep [] = [exEntryA, exEntryB] := by
  rw [List.foldl_cons, List.foldl_cons, List.foldl_nil]
  have h1 : semStep [] exResA = [exEntryA] := by
    rw [semStep, if_neg (by simp)]
    simp [exResA, exEntryA]
  rw [h1]
  rw [semStep, if_neg (by simp [exEntryA, exResA, exResB])]
  simp [exResB, exEntryB]

theorem ex_hybrid_gen (enum : List (String × FuseEntry) → List (String × FuseEntry)) :
    search_hybrid exBm25 enum exEng "q" none =
      List.insertionSort byFinalDesc ((enum [exEntryA, exEntryB]).map fuseEntry) := by
  rw [search_hybrid, show exEng.embedder = some exEmbedder from rfl]
  simp only [show exEng.state = exState from rfl]
  rw [ex_fts, ex_embed, ex_sbe]
  simp only [List.map_nil, List.foldl_nil]
  rw [ex_semfold]

theorem ex_fuse_map : [exEntryA, exEntryB].map fuseEntry = [exOutA, exOutB] := by
  rw [List.map_cons, List.map_cons, List.map_nil]
  have ha : fuseEntry exEntryA = exOutA := by
    rw [fuseEntry]
    simp only [exEntryA, exResA, exOutA]
    norm_num
  have hb : fuseEntry exEntryB = exOutB := by
    rw [fuseEntry]
    simp only [exEntryB, exResB, exOutB]
    norm_num
  rw [ha, hb]

theorem ex_sort_AB :
    List.insertionSort byFinalDesc [exOutA, exOutB] = [exOutA, exOutB] := by
  simp [byFinalDesc, exOutA, exOutB]

theorem ex_sort_BA :
    List.insertionSort byFinalDesc [exOutB, exOutA] = [exOutB, exOutA] := by
  simp [byFinalDesc, exOutA, exOutB]

theorem ex_hybrid_id : search_hybrid exBm25 id exEng "q" none = [exOutA, exOutB] := by
  rw [ex_hybrid_gen id]
  show List.insertionSort byFinalDesc ([exEntryA, exEntryB].map fuseEntry) = _
  rw [ex_fuse_map, ex_sort_AB]

theorem ex_hybrid_rev :
    search_hybrid exBm25 List.reverse exEng "q" none = [exOutB, exOutA] := by
  rw [ex_hybrid_gen List.reverse]
  rw [show List.reverse [exEntryA, exEntryB] = [exEntryB, exEntryA] by rfl]
  have h : [exEntryB, exEntryA].map fuseEntry = [exOutB, exOutA] := by
    rw [List.map_cons, List.map_cons, List.map_nil]
    have ha : fuseEntry exEntryA = exOutA := by
      rw [fuseEntry]
      simp only [exEntryA, exResA, exOutA]
      norm_num
    have hb : fuseEntry exEntryB = exOutB := by
      rw [fuseEntry]
      simp only [exEntryB, exResB, exOutB]
      norm_num
    rw [ha, hb]
  rw [h, ex_sort_BA]

/-- C7 counterexample: with the same store state, query, mode and
filters, two valid enumeration orders of the combined_results hash map
(both permutations of its entries) produce outputs in different orders,
because the two candidates tie at final score 0.4 and the stable final
sort keeps the map order; so the result order is not determined by the
claimed inputs alone. -/
theorem C7_counterexample :
    (∀ l : List (String × FuseEntry), (List.reverse l).Perm l) ∧
    search_hybrid exBm25 id exEng "q" none ≠
      search_hybrid exBm25 List.reverse exEng "q" none := by
  constructor
  · exact fun l => List.reverse_perm l
  · rw [ex_hybrid_id, ex_hybrid_rev]
    intro h
    have h2 : exOutA.path = exOutB.path := congrArg SearchResult.path (List.head_eq_of_cons_eq h)
    simp [exOutA, exOutB] at h2

end LocalSearch
